import Mathlib

/-!
# Verification of the rawcompr core (LLR reference table, writer/reader, pixel-format
# selection, and the decompression reverse index)

Shallow embedding of the core of `rawcompr` (a tool that losslessly compresses
multimedia containers carrying raw streams and reconstructs them byte-for-byte).

Conventions used throughout this development:

* Files and byte streams are `List Nat` (one `Nat` per byte; reads produce the
  file's bytes, writes produce byte values reduced mod 256 where the source
  truncates).
* `std::map<size_t, ReferenceInfo>` (the packet reference table, file
  `llrfile.cpp`) is embedded as an association list `List (Nat × ReferenceInfo)`
  whose representation invariant — always satisfied by a `std::map` — is that
  keys are strictly increasing (`TableSorted`).
* C integer fields are embedded as `Nat` (for the unsigned / non-negative
  quantities: `size_t` keys and indices, packet sizes) and `Int` (for `pts`,
  an `int64_t` that is genuinely signed).  Wire serialization applies the
  explicit `mod 2^w` truncation performed by `avio_wb32`/`avio_wb64`.
* Fatal errors (`logError`, `errx`, `abort`) terminate the process; a fallible
  embedded operation returns `Option`, `none` meaning the fatal path.
* The cryptographic hash (`av_hash_*`) is an external primitive.  The embedding
  records the exact byte sequence fed to the hash context; two call sites feed
  the same digest iff they feed the same byte sequence.
-/

namespace Rawcompr

/-- `enum CodecType : char { Copy = 1, Video = 2 }` from `llrfile.h`. -/
inductive CodecType where
  | Copy : CodecType
  | Video : CodecType
deriving DecidableEq, Repr

/-- `PacketReferences::StreamInfo` from `llrfile.h`: a per-stream row.
`pixelFormat` holds the bytes of the pixel-format name (a C string, meaningful
only when `type = Video`; empty for `Copy`, as in the C++ default-constructed
`std::string`). -/
structure StreamInfo where
  type : CodecType
  pixelFormat : List Nat := []
deriving DecidableEq, Repr

/-- `PacketReferences::ReferenceInfo` from `llrfile.h`: one row per encoded
packet that replaces an original byte range. -/
structure ReferenceInfo where
  origSize : Nat
  streamIndex : Nat
  packetIndex : Nat
  pts : Int
deriving DecidableEq, Repr

/-- The packet reference table `std::map<size_t, ReferenceInfo>` keyed by
`origPos`, embedded as an association list in key order. -/
abbrev Table := List (Nat × ReferenceInfo)

/-- Representation invariant of `std::map`: keys strictly increasing in
iteration order. -/
def TableSorted (t : Table) : Prop :=
  t.Sorted (fun a b => a.1 < b.1)

instance (t : Table) : Decidable (TableSorted t) := by
  unfold TableSorted List.Sorted
  infer_instance

/-- `m_table.emplace(origPos, info)`: ordered insertion that leaves the map
unchanged when the key is already present.  Returns the resulting map and the
`inserted` flag of `std::map::emplace`. -/
def emplace (k : Nat) (v : ReferenceInfo) : Table → Table × Bool
  | [] => ([(k, v)], true)
  | (k', v') :: rest =>
    if k < k' then ((k, v) :: (k', v') :: rest, true)
    else if k = k' then ((k', v') :: rest, false)
    else
      let (t, ins) := emplace k v rest
      ((k', v') :: t, ins)

/-- The key of `++it` after `emplace(origPos, ...)` on a sorted map: the least
key strictly greater than `k`. -/
def upperKey (t : Table) (k : Nat) : Option Nat :=
  (t.find? (fun p => k < p.1)).map (·.1)

/-- `PacketReferences::addPacketReference` (`llrfile.cpp`): emplace the row;
halt (`none`) when the key was already present, or when the entry following the
inserted one starts before `origPos + origSize` ("overlapping range, probably a
bug"). -/
def addPacketReference (t : Table) (streamIndex : Nat) (packetIndex : Nat)
    (pts : Int) (origPos : Nat) (origSize : Nat) : Option Table :=
  let info : ReferenceInfo :=
    { origSize := origSize, streamIndex := streamIndex,
      packetIndex := packetIndex, pts := pts }
  let r := emplace origPos info t
  if r.2 then
    match upperKey r.1 origPos with
    | some nk => if nk < origPos + origSize then none else some r.1
    | none => some r.1
  else none

/-- Invariant I1 of the spec: any two table entries with `p1 < p2` satisfy
`p1 + s1 ≤ p2`. -/
def NoOverlap (t : Table) : Prop :=
  ∀ p₁ e₁ p₂ e₂, (p₁, e₁) ∈ t → (p₂, e₂) ∈ t → p₁ < p₂ →
    p₁ + e₁.origSize ≤ p₂

instance (t : Table) : Decidable (NoOverlap t) := by
  unfold NoOverlap
  have : (∀ x ∈ t, ∀ y ∈ t, x.1 < y.1 → x.1 + x.2.origSize ≤ y.1) ↔
      (∀ p₁ e₁ p₂ e₂, (p₁, e₁) ∈ t → (p₂, e₂) ∈ t → p₁ < p₂ →
        p₁ + e₁.origSize ≤ p₂) := by
    constructor
    · intro h p₁ e₁ p₂ e₂ h₁ h₂ hlt
      exact h _ h₁ _ h₂ hlt
    · intro h x hx y hy hlt
      exact h x.1 x.2 y.1 y.2 hx hy hlt
  exact decidable_of_iff _ this

/-! ## Pixel-format selection (`libav.cpp`)

`av_get_pix_fmt_loss(dst, src, alpha)` is a primitive of the external media
library; the embedding abstracts it as a function argument `loss`.  Pixel
formats themselves are abstracted as `Nat`. -/

/-- The candidate loop of `selectCompatibleLosslessPixelFormat`
(`libav.cpp`): `result` starts at `AV_PIX_FMT_NONE` (`none`) and is overwritten
by every candidate whose two loss scores are both zero. -/
def selectPixFmtLoop (loss : Nat → Nat → Bool → Int) (src : Nat) :
    List Nat → Option Nat → Option Nat
  | [], result => result
  | c :: rest, result =>
    let losses := loss c src false
    let lossesInv := loss src c true
    selectPixFmtLoop loss src rest
      (if losses = 0 ∧ lossesInv = 0 then some c else result)

/-- `selectCompatibleLosslessPixelFormat(src, candidates)` (`libav.cpp`):
run the candidate loop; a final `AV_PIX_FMT_NONE` result is the fatal
`logError` path (`none`). -/
def selectCompatibleLosslessPixelFormat (loss : Nat → Nat → Bool → Int)
    (src : Nat) (candidates : List Nat) : Option Nat :=
  selectPixFmtLoop loss src candidates none

/-- The behaviour the spec sentence describes, written from the spec's words:
return the *first* candidate whose round-trip and inverse loss scores are both
zero. -/
def selectFirstLosslessSpec (loss : Nat → Nat → Bool → Int)
    (src : Nat) (candidates : List Nat) : Option Nat :=
  candidates.find? (fun c => loss c src false = 0 ∧ loss src c true = 0)

/-- A loss oracle under which every conversion is lossless. -/
def allLossless : Nat → Nat → Bool → Int := fun _ _ _ => 0

theorem selectPixFmtLoop_eq (loss : Nat → Nat → Bool → Int) (src : Nat) :
    ∀ (candidates : List Nat) (acc : Option Nat),
      selectPixFmtLoop loss src candidates acc =
        ((candidates.reverse.find?
            (fun c => loss c src false = 0 ∧ loss src c true = 0)).or acc) := by
  intro candidates
  induction candidates with
  | nil => intro acc; simp [selectPixFmtLoop]
  | cons c rest ih =>
    intro acc
    simp only [selectPixFmtLoop, List.reverse_cons, List.find?_append, ih]
    by_cases h : loss c src false = 0 ∧ loss src c true = 0
    · simp [h, List.find?, Option.or_assoc]
    · simp [h, List.find?, Option.or_assoc]

/-- C2 counterexample: with a loss oracle under which both scores are zero for
every pair, and candidate list `[1, 2]`, the code returns candidate `2` (the
last qualifying one) while the claim's "first qualifying candidate" is `1`.
So `selectCompatibleLosslessPixelFormat` does not return the first qualifying
candidate. -/
theorem selectPixFmt_not_first_qualifying :
    selectCompatibleLosslessPixelFormat allLossless 0 [1, 2] = some 2 ∧
      selectFirstLosslessSpec allLossless 0 [1, 2] = some 1 ∧
      (2 : Nat) ≠ 1 := by
  refine ⟨rfl, rfl, by decide⟩

/-- C2 (amended): `selectCompatibleLosslessPixelFormat(src, candidates)`
returns the **last** candidate in the list for which both the round-trip loss
score (candidate from src) and the inverse loss score (src from candidate) are
zero, and fails fatally (`none`) exactly when no candidate qualifies. -/
theorem selectPixFmt_last_qualifying (loss : Nat → Nat → Bool → Int)
    (src : Nat) (candidates : List Nat) :
    selectCompatibleLosslessPixelFormat loss src candidates =
      candidates.reverse.find?
        (fun c => loss c src false = 0 ∧ loss src c true = 0) ∧
    (selectCompatibleLosslessPixelFormat loss src candidates = none ↔
      ∀ c ∈ candidates, ¬(loss c src false = 0 ∧ loss src c true = 0)) := by
  have h := selectPixFmtLoop_eq loss src candidates none
  constructor
  · simpa [selectCompatibleLosslessPixelFormat] using h
  · rw [selectCompatibleLosslessPixelFormat, h]
    simp only [Option.or_none, List.find?_eq_none, List.mem_reverse]
    constructor
    · intro hall c hc hq
      have := hall c hc
      simp [hq.1, hq.2] at this
    · intro hall c hc
      have := hall c hc
      simpa using this

/-! ## Lemmas about `emplace` and `addPacketReference` -/

theorem emplace_not_inserted_iff (k : Nat) (v : ReferenceInfo) :
    ∀ (t : Table), TableSorted t →
      ((emplace k v t).2 = false ↔ k ∈ t.map Prod.fst) := by
  intro t
  induction t with
  | nil => intro _; simp [emplace]
  | cons hd rest ih =>
    intro hs
    obtain ⟨k', v'⟩ := hd
    have hrest : TableSorted rest := hs.of_cons
    have hhead := (List.sorted_cons.mp hs).1
    by_cases h1 : k < k'
    · simp only [emplace, if_pos h1]
      constructor
      · intro hf; simp at hf
      · intro hmem
        rcases List.mem_map.mp hmem with ⟨p, hp, hpk⟩
        rcases List.mem_cons.mp hp with rfl | hp'
        · omega
        · have := hhead p hp'
          omega
    · by_cases h2 : k = k'
      · simp [emplace, h1, h2]
      · simp only [emplace, if_neg h1, if_neg h2]
        rw [show ((k', v') ::
            (emplace k v rest).1, (emplace k v rest).2).2 =
            (emplace k v rest).2 from rfl]
        rw [ih hrest]
        simp only [List.map_cons, List.mem_cons]
        constructor
        · intro hm; exact Or.inr hm
        · rintro (h | h)
          · exact absurd h h2
          · exact h

theorem emplace_fst_of_not_inserted (k : Nat) (v : ReferenceInfo) :
    ∀ (t : Table), (emplace k v t).2 = false → (emplace k v t).1 = t := by
  intro t
  induction t with
  | nil => intro h; simp [emplace] at h
  | cons hd rest ih =>
    obtain ⟨k', v'⟩ := hd
    by_cases h1 : k < k'
    · intro h; simp [emplace, h1] at h
    · by_cases h2 : k = k'
      · intro _; simp [emplace, h1, h2]
      · intro h
        simp only [emplace, if_neg h1, if_neg h2] at h ⊢
        rw [ih h]

theorem emplace_perm (k : Nat) (v : ReferenceInfo) :
    ∀ (t : Table), (emplace k v t).2 = true →
      (emplace k v t).1.Perm ((k, v) :: t) := by
  intro t
  induction t with
  | nil => intro _; simp [emplace]
  | cons hd rest ih =>
    obtain ⟨k', v'⟩ := hd
    by_cases h1 : k < k'
    · intro _; simp [emplace, h1]
    · by_cases h2 : k = k'
      · intro h; simp [emplace, h1, h2] at h
      · intro h
        simp only [emplace, if_neg h1, if_neg h2] at h ⊢
        refine ((ih h).cons (k', v')).trans ?_
        exact List.Perm.swap _ _ _

theorem emplace_sorted (k : Nat) (v : ReferenceInfo) :
    ∀ (t : Table), TableSorted t → (emplace k v t).2 = true →
      TableSorted (emplace k v t).1 := by
  intro t
  induction t with
  | nil => intro _ _; simp [emplace, TableSorted]
  | cons hd rest ih =>
    obtain ⟨k', v'⟩ := hd
    intro hs hins
    have hrest : TableSorted rest := hs.of_cons
    have hhead := (List.sorted_cons.mp hs).1
    by_cases h1 : k < k'
    · simp only [emplace, if_pos h1]
      refine List.sorted_cons.mpr ⟨?_, hs⟩
      intro p hp
      rcases List.mem_cons.mp hp with rfl | hp'
      · exact h1
      · have := hhead p hp'
        omega
    · by_cases h2 : k = k'
      · simp [emplace, h1, h2] at hins
      · simp only [emplace, if_neg h1, if_neg h2] at hins ⊢
        refine List.sorted_cons.mpr ⟨?_, ih hrest hins⟩
        intro p hp
        have hp2 := (emplace_perm k v rest hins).mem_iff.mp hp
        rcases List.mem_cons.mp hp2 with rfl | hp'
        · omega
        · exact hhead p hp'

theorem upperKey_emplace (k : Nat) (v : ReferenceInfo) :
    ∀ (t : Table), (emplace k v t).2 = true →
      upperKey (emplace k v t).1 k = upperKey t k := by
  intro t
  induction t with
  | nil => intro _; simp [emplace, upperKey, List.find?]
  | cons hd rest ih =>
    obtain ⟨k', v'⟩ := hd
    by_cases h1 : k < k'
    · intro _
      simp only [emplace, if_pos h1, upperKey, List.find?]
      simp
    · by_cases h2 : k = k'
      · intro h; simp [emplace, h1, h2] at h
      · intro h
        simp only [emplace, if_neg h1, if_neg h2] at h ⊢
        have hk : ¬ (k < k') := h1
        simp only [upperKey, List.find?]
        have : (decide (k < k')) = false := by simpa using hk
        rw [this]
        simp only [Bool.false_eq_true, if_false]
        exact ih h

theorem lookup_cons (j k : Nat) (v : ReferenceInfo) (t : Table) :
    List.lookup j ((k, v) :: t) = if j = k then some v else List.lookup j t := by
  by_cases h : j = k
  · have hb : (j == k) = true := beq_iff_eq.mpr h
    simp [List.lookup, hb, h]
  · have hb : (j == k) = false := beq_eq_false_iff_ne.mpr h
    simp [List.lookup, hb, h]

theorem emplace_lookup (k : Nat) (v : ReferenceInfo) :
    ∀ (t : Table), TableSorted t → (emplace k v t).2 = true →
      ∀ j, List.lookup j (emplace k v t).1 =
        if j = k then some v else List.lookup j t := by
  intro t
  induction t with
  | nil =>
    intro _ _ j
    simp [emplace, lookup_cons]
  | cons hd rest ih =>
    obtain ⟨k', v'⟩ := hd
    intro hs hins j
    have hrest : TableSorted rest := hs.of_cons
    by_cases h1 : k < k'
    · simp only [emplace, if_pos h1]
      by_cases hj : j = k
      · simp [lookup_cons, hj]
      · simp [lookup_cons, hj]
    · by_cases h2 : k = k'
      · simp [emplace, h1, h2] at hins
      · simp only [emplace, if_neg h1, if_neg h2] at hins ⊢
        by_cases hj : j = k'
        · subst hj
          have hkk : ¬(j = k) := by omega
          simp [lookup_cons, hkk]
        · rw [lookup_cons, lookup_cons, if_neg hj, if_neg hj]
          exact ih hrest hins j

/-- Claim C3 (code bug): a run of two `addPacketReference` calls, neither of
which halts, that leaves the table violating the no-overlap invariant I1.
The call `addPacketReference(0, 1, 1, origPos = 5, origSize = 2)` inserts a
range that lies strictly inside the already-registered range `[0, 10)`:
`emplace` succeeds (the key `5` is fresh) and the successor check passes
(`5` has no successor), so the guard misses the predecessor overlap. -/
theorem addPacketReference_accepts_predecessor_overlap :
    addPacketReference [] 0 0 0 0 10 =
      some [(0, ⟨10, 0, 0, 0⟩)] ∧
    addPacketReference [(0, ⟨10, 0, 0, 0⟩)] 0 1 1 5 2 =
      some [(0, ⟨10, 0, 0, 0⟩), (5, ⟨2, 0, 1, 1⟩)] ∧
    ¬ NoOverlap [(0, ⟨10, 0, 0, 0⟩), (5, ⟨2, 0, 1, 1⟩)] := by
  refine ⟨by decide, by decide, by decide⟩

/-- Claim C4: `addPacketReference(streamIndex, packetIndex, pts, origPos,
origSize)` fails fatally ("overlapping range") iff (a) an entry with the same
`origPos` already exists, or (b) `origPos + origSize` exceeds the `origPos` of
the next-higher existing entry; otherwise it returns the table with exactly the
new entry added and every other association unchanged (and still sorted). -/
theorem addPacketReference_spec (t : Table) (hs : TableSorted t)
    (si pi : Nat) (pts : Int) (pos sz : Nat) :
    (addPacketReference t si pi pts pos sz = none ↔
      pos ∈ t.map Prod.fst ∨
        ∃ nk, upperKey t pos = some nk ∧ pos + sz > nk) ∧
    (∀ t', addPacketReference t si pi pts pos sz = some t' →
      TableSorted t' ∧
      ∀ j, List.lookup j t' =
        if j = pos then some ⟨sz, si, pi, pts⟩ else List.lookup j t) := by
  have hdef : addPacketReference t si pi pts pos sz =
      (if (emplace pos (⟨sz, si, pi, pts⟩ : ReferenceInfo) t).2 then
        match upperKey (emplace pos (⟨sz, si, pi, pts⟩ : ReferenceInfo) t).1
            pos with
        | some nk =>
          if nk < pos + sz then none
          else some (emplace pos (⟨sz, si, pi, pts⟩ : ReferenceInfo) t).1
        | none => some (emplace pos (⟨sz, si, pi, pts⟩ : ReferenceInfo) t).1
      else none) := rfl
  set info : ReferenceInfo := ⟨sz, si, pi, pts⟩ with hinfo
  rcases hins : (emplace pos info t).2 with _ | _
  · -- not inserted: duplicate key, immediate halt
    have hmem : pos ∈ t.map Prod.fst :=
      (emplace_not_inserted_iff pos info t hs).mp hins
    rw [hdef, hins]
    constructor
    · simp [hmem]
    · intro t' h
      simp at h
  · -- inserted
    have hmem : pos ∉ t.map Prod.fst := by
      intro hmem
      have := (emplace_not_inserted_iff pos info t hs).mpr hmem
      rw [hins] at this
      simp at this
    have hup := upperKey_emplace pos info t hins
    rw [hdef, hins, hup]
    constructor
    · rcases h : upperKey t pos with _ | nk
      · simp [hmem]
      · by_cases hlt : nk < pos + sz
        · simp only [if_pos hlt, if_true]
          constructor
          · intro _
            right; exact ⟨nk, rfl, hlt⟩
          · intro _; trivial
        · simp only [if_neg hlt, if_true]
          constructor
          · intro hcontra; exact absurd hcontra (by simp)
          · rintro (hdup | ⟨nk', hk', hgt⟩)
            · exact absurd hdup hmem
            · injection hk' with hk'
              omega
    · intro t' h
      have ht' : t' = (emplace pos info t).1 := by
        rcases hk : upperKey t pos with _ | nk
        · rw [hk] at h
          simp only [if_true] at h
          injection h with h; exact h.symm
        · rw [hk] at h
          simp only [if_true] at h
          by_cases hlt : nk < pos + sz
          · rw [if_pos hlt] at h; exact absurd h (by simp)
          · rw [if_neg hlt] at h; injection h with h; exact h.symm
      subst ht'
      exact ⟨emplace_sorted pos info t hs hins,
        emplace_lookup pos info t hs hins⟩

/-- Witness for C4 at a concrete table and arguments. -/
theorem addPacketReference_spec_witness :
    (addPacketReference [(0, ⟨3, 0, 0, 0⟩)] 0 1 7 10 2 = none ↔
      10 ∈ ([(0, (⟨3, 0, 0, 0⟩ : ReferenceInfo))].map Prod.fst) ∨
        ∃ nk, upperKey [(0, ⟨3, 0, 0, 0⟩)] 10 = some nk ∧ 10 + 2 > nk) ∧
    (∀ t', addPacketReference [(0, ⟨3, 0, 0, 0⟩)] 0 1 7 10 2 = some t' →
      TableSorted t' ∧
      ∀ j, List.lookup j t' =
        if j = 10 then some ⟨2, 0, 1, 7⟩
        else List.lookup j [(0, ⟨3, 0, 0, 0⟩)]) :=
  addPacketReference_spec [(0, ⟨3, 0, 0, 0⟩)] (by decide) 0 1 7 10 2

/-! ## The LLR writer (`writeLLR`, `llrfile.cpp`)

The input container is a byte list `file`; `avio_size` is `file.length`.
`avio_read_partial(inputFile, buffer, n)` at offset `pos` returns
`min n (file.length - pos)` bytes (the next bytes of the file), and `0` at EOF,
which the code treats as the fatal "Premature end of file".  The
`while (start != end)` read loops of `embedChunk`/`hashChunk` are embedded with
a structural fuel argument; `stop - start` steps are always sufficient because
every successful iteration reads at least one byte. -/

def LLR_BUFFER_SIZE : Nat := 4096

/-- The `while (start != end)` loop shared by `embedChunk` and `hashChunk`:
read the byte range `[start, stop)` of `file` in chunks of at most
`LLR_BUFFER_SIZE`, failing on premature EOF (a zero-byte read). -/
def chunkReadGo (file : List Nat) : Nat → Nat → Nat → Option (List Nat)
  | fuel, start, stop =>
    if start = stop then some []
    else
      match fuel with
      | 0 => none
      | fuel + 1 =>
        let r := min (min LLR_BUFFER_SIZE (stop - start)) (file.length - start)
        if r = 0 then none
        else
          match chunkReadGo file fuel (start + r) stop with
          | none => none
          | some rest => some ((file.drop start).take r ++ rest)

/-- Read `[start, stop)` from `file`; `stop - start` iterations always
suffice. -/
def chunkRead (file : List Nat) (start stop : Nat) : Option (List Nat) :=
  chunkReadGo file (stop - start) start stop

/-- `embedChunk(start, end)` of `writeLLR`: check the current input offset
(`avio_tell`), then read `[start, stop)`; the bytes are both appended to the
LLR file and fed to the hash context.  Returns the bytes and the new input
offset. -/
def embedChunk (file : List Nat) (pos start stop : Nat) :
    Option (List Nat × Nat) :=
  if pos ≠ start then none
  else
    match chunkRead file start stop with
    | none => none
    | some bs => some (bs, stop)

/-- `hashChunk(start, end)` of `writeLLR`: identical read loop, but the bytes
are only fed to the hash context. -/
def hashChunk (file : List Nat) (pos start stop : Nat) :
    Option (List Nat × Nat) :=
  if pos ≠ start then none
  else
    match chunkRead file start stop with
    | none => none
    | some bs => some (bs, stop)

/-- What `writeLLR` produces, beyond the fixed header/table framing:
`gapBytes` is the byte sequence appended to the LLR gap region, and
`hashBytes` is the exact byte sequence fed to the hash context (in order).
The digest backfilled into the hash slot is the primitive hash of
`hashBytes`. -/
structure LLRWriteResult where
  gapBytes : List Nat
  hashBytes : List Nat
deriving DecidableEq, Repr

/-- The main loop of `writeLLR` over the reference table, plus the trailing
`if (prevOffset != inputSize) embedChunk(prevOffset, inputSize)`.  `pos` models
`avio_tell(inputFile)` (the writer seeks the input to 0 before the loop). -/
def writeLLRGo (file : List Nat) :
    Table → Nat → Nat → Option LLRWriteResult
  | [], pos, prevOffset =>
    if prevOffset ≠ file.length then
      match embedChunk file pos prevOffset file.length with
      | none => none
      | some (bs, _) => some ⟨bs, bs⟩
    else some ⟨[], []⟩
  | (origPos, e) :: rest, pos, prevOffset =>
    if origPos ≠ prevOffset then
      match embedChunk file pos prevOffset origPos with
      | none => none
      | some (bs, pos₁) =>
        match hashChunk file pos₁ origPos (origPos + e.origSize) with
        | none => none
        | some (hs, pos₂) =>
          match writeLLRGo file rest pos₂ (origPos + e.origSize) with
          | none => none
          | some res => some ⟨bs ++ res.gapBytes, bs ++ hs ++ res.hashBytes⟩
    else
      match hashChunk file pos origPos (origPos + e.origSize) with
      | none => none
      | some (hs, pos₂) =>
        match writeLLRGo file rest pos₂ (origPos + e.origSize) with
        | none => none
        | some res => some ⟨res.gapBytes, hs ++ res.hashBytes⟩

/-- `writeLLR(inputFile, packetRefs, llrFile, hashName)` (`llrfile.cpp`),
restricted to its gap/hash behaviour: the header, hash-slot reservation and
`serialize` output precede the gap region and do not interact with it.  The
input is seeked to 0 and `prevOffset` starts at 0. -/
def writeLLR (file : List Nat) (table : Table) : Option LLRWriteResult :=
  writeLLRGo file table 0 0

/-! ## Lemmas about the read loop -/

theorem slice_glue (file : List Nat) (a b : Nat) (h : a ≤ b) :
    (file.drop a).take (b - a) ++ file.drop b = file.drop a := by
  have hkey := List.drop_take_append_drop file a (b - a)
  rwa [show a + (b - a) = b by omega] at hkey

theorem chunkReadGo_eq (file : List Nat) :
    ∀ (fuel start stop : Nat), stop - start ≤ fuel → start ≤ stop →
      stop ≤ file.length →
      chunkReadGo file fuel start stop =
        some ((file.drop start).take (stop - start)) := by
  intro fuel
  induction fuel with
  | zero =>
    intro start stop hf hle hlen
    have : start = stop := by omega
    subst this
    simp [chunkReadGo]
  | succ fuel ih =>
    intro start stop hf hle hlen
    by_cases heq : start = stop
    · subst heq
      simp [chunkReadGo]
    · have hlt : start < stop := by omega
      have hr1 : 1 ≤ min (min LLR_BUFFER_SIZE (stop - start))
          (file.length - start) := by
        have : 1 ≤ LLR_BUFFER_SIZE := by decide
        omega
      rw [chunkReadGo]
      rw [if_neg heq]
      set r := min (min LLR_BUFFER_SIZE (stop - start))
          (file.length - start) with hrdef
      have hrne : ¬(r = 0) := by omega
      rw [if_neg hrne]
      have hrle : r ≤ stop - start := by omega
      have hrec := ih (start + r) stop (by omega) (by omega) hlen
      rw [hrec]
      dsimp only
      have hd : (file.drop start).drop r = file.drop (start + r) := by
        rw [List.drop_drop, Nat.add_comm]
      have hsplit : (file.drop start).take (stop - start) =
          (file.drop start).take r ++
            (file.drop (start + r)).take (stop - (start + r)) := by
        rw [← hd, ← List.take_add]
        congr 1
        omega
      rw [hsplit]

theorem chunkRead_eq (file : List Nat) (start stop : Nat)
    (hle : start ≤ stop) (hlen : stop ≤ file.length) :
    chunkRead file start stop =
      some ((file.drop start).take (stop - start)) :=
  chunkReadGo_eq file (stop - start) start stop le_rfl hle hlen

theorem chunkReadGo_some_bounds (file : List Nat) :
    ∀ (fuel start stop : Nat) (bs : List Nat),
      chunkReadGo file fuel start stop = some bs →
      start = stop ∨ (start < stop ∧ stop ≤ file.length) := by
  intro fuel
  induction fuel with
  | zero =>
    intro start stop bs h
    by_cases heq : start = stop
    · exact Or.inl heq
    · rw [chunkReadGo, if_neg heq] at h
      simp at h
  | succ fuel ih =>
    intro start stop bs h
    by_cases heq : start = stop
    · exact Or.inl heq
    · rw [chunkReadGo, if_neg heq] at h
      set r := min (min LLR_BUFFER_SIZE (stop - start))
          (file.length - start) with hrdef
      by_cases hr : r = 0
      · rw [if_pos hr] at h; simp at h
      · rw [if_neg hr] at h
        rcases hrec : chunkReadGo file fuel (start + r) stop with _ | rest
        · rw [hrec] at h; simp at h
        · have hb := ih (start + r) stop rest hrec
          have hr1 : 1 ≤ r := by omega
          have hrle : r ≤ file.length - start := by omega
          right
          rcases hb with hb | hb
          · constructor
            · omega
            · omega
          · exact ⟨by omega, hb.2⟩

theorem chunkRead_some_bounds (file : List Nat) (start stop : Nat)
    (bs : List Nat) (h : chunkRead file start stop = some bs) :
    start = stop ∨ (start < stop ∧ stop ≤ file.length) :=
  chunkReadGo_some_bounds file (stop - start) start stop bs h

/-! ## The gap/reference chain invariant and the gap segments -/

/-- The shape the reference table must have, relative to a current offset
`prev`, for the `writeLLR` sweep to be a linear pass over `[prev, N)`:
entries in ascending order, pairwise non-overlapping, all contained in the
file.  This is exactly what `TableSorted` + `NoOverlap` + boundedness give
(see `chainFrom_mk`). -/
def ChainFrom (N : Nat) : Nat → Table → Prop
  | prev, [] => prev ≤ N
  | prev, (p, e) :: rest =>
    prev ≤ p ∧ p + e.origSize ≤ N ∧ ChainFrom N (p + e.origSize) rest

theorem chainFrom_mk (N : Nat) :
    ∀ (t : Table) (prev : Nat), TableSorted t → NoOverlap t →
      (∀ p e, (p, e) ∈ t → p + e.origSize ≤ N) →
      (∀ p e, (p, e) ∈ t → prev ≤ p) → prev ≤ N →
      ChainFrom N prev t := by
  intro t
  induction t with
  | nil => intro prev _ _ _ _ h; exact h
  | cons hd rest ih =>
    obtain ⟨p, e⟩ := hd
    intro prev hs hov hb hge hN
    have hhead := (List.sorted_cons.mp hs).1
    refine ⟨hge p e (List.mem_cons_self _ _), hb p e (List.mem_cons_self _ _), ?_⟩
    refine ih (p + e.origSize) hs.of_cons ?_ ?_ ?_ ?_
    · intro p₁ e₁ p₂ e₂ h₁ h₂ hlt
      exact hov p₁ e₁ p₂ e₂ (List.mem_cons_of_mem _ h₁)
        (List.mem_cons_of_mem _ h₂) hlt
    · intro p' e' h'
      exact hb p' e' (List.mem_cons_of_mem _ h')
    · intro p' e' h'
      have hlt : p < p' := hhead (p', e') h'
      exact hov p e p' e' (List.mem_cons_self _ _)
        (List.mem_cons_of_mem _ h') hlt
    · exact hb p e (List.mem_cons_self _ _)

/-- The gap ranges of `[prev, N)` left uncovered by the table: the ranges the
`writeLLR` sweep embeds into the LLR file and the `readLLR` sweep loads back.
Mirrors the `if (origPos != prevOffset)` / final-gap structure of both
loops. -/
def gapSegs (N : Nat) : Table → Nat → List (Nat × Nat)
  | [], prev => if prev ≠ N then [(prev, N - prev)] else []
  | (p, e) :: rest, prev =>
    if p ≠ prev then (prev, p - prev) :: gapSegs N rest (p + e.origSize)
    else gapSegs N rest (p + e.origSize)

/-- The bytes of `file` in the range `[p, p + l)`. -/
def sliceF (file : List Nat) (s : Nat × Nat) : List Nat :=
  (file.drop s.1).take s.2

/-- Under the chain invariant, the `writeLLR` sweep succeeds, embeds exactly
the gap ranges, and feeds exactly `file[prev..]` to the hash context. -/
theorem writeLLRGo_eq (file : List Nat) :
    ∀ (t : Table) (prev : Nat), ChainFrom file.length prev t →
      writeLLRGo file t prev prev =
        some ⟨((gapSegs file.length t prev).map (sliceF file)).flatten,
          file.drop prev⟩ := by
  intro t
  induction t with
  | nil =>
    intro prev hch
    have hN : prev ≤ file.length := hch
    by_cases heq : prev = file.length
    · subst heq
      simp [writeLLRGo, gapSegs, List.drop_length]
    · rw [writeLLRGo, if_pos heq]
      rw [embedChunk, if_neg (by omega)]
      rw [chunkRead_eq file prev file.length hN le_rfl]
      rw [gapSegs, if_pos heq]
      simp only [List.map_cons, List.map_nil, List.flatten]
      have : (file.drop prev).take (file.length - prev) = file.drop prev := by
        apply List.take_of_length_le
        rw [List.length_drop]
      simp [sliceF, this]
  | cons hd rest ih =>
    obtain ⟨p, e⟩ := hd
    intro prev hch
    obtain ⟨hge, hbound, hrest⟩ := hch
    have hpN : p ≤ file.length := by omega
    have hsz : p + e.origSize ≤ file.length := hbound
    have hrec := ih (p + e.origSize) hrest
    have hglue₂ : (file.drop p).take (p + e.origSize - p) ++
        file.drop (p + e.origSize) = file.drop p :=
      slice_glue file p (p + e.origSize) (by omega)
    by_cases heq : p = prev
    · subst heq
      rw [writeLLRGo, if_neg (by omega)]
      rw [hashChunk, if_neg (by omega)]
      rw [chunkRead_eq file p (p + e.origSize) (by omega) hsz]
      dsimp only
      rw [hrec]
      dsimp only
      rw [gapSegs, if_neg (by omega)]
      refine congrArg some ?_
      refine (LLRWriteResult.mk.injEq _ _ _ _).mpr ⟨rfl, ?_⟩
      rw [hglue₂]
    · rw [writeLLRGo, if_pos heq]
      rw [embedChunk, if_neg (by omega)]
      rw [chunkRead_eq file prev p hge hpN]
      dsimp only
      rw [hashChunk, if_neg (by omega)]
      rw [chunkRead_eq file p (p + e.origSize) (by omega) hsz]
      dsimp only
      rw [hrec]
      dsimp only
      rw [gapSegs, if_pos heq]
      have hglue₁ : (file.drop prev).take (p - prev) ++ file.drop p =
          file.drop prev := slice_glue file prev p hge
      refine congrArg some ?_
      refine (LLRWriteResult.mk.injEq _ _ _ _).mpr ⟨rfl, ?_⟩
      rw [List.append_assoc, hglue₂, hglue₁]

theorem embedChunk_some {file : List Nat} {pos start stop : Nat}
    {bs : List Nat} {pos' : Nat}
    (h : embedChunk file pos start stop = some (bs, pos')) :
    pos = start ∧ chunkRead file start stop = some bs ∧ pos' = stop := by
  unfold embedChunk at h
  by_cases hc : pos ≠ start
  · rw [if_pos hc] at h; simp at h
  · rw [if_neg hc] at h
    rcases hr : chunkRead file start stop with _ | bs'
    · rw [hr] at h; simp at h
    · rw [hr] at h
      simp only [Option.some.injEq, Prod.mk.injEq] at h
      refine ⟨by omega, ?_, h.2.symm⟩
      exact congrArg some h.1

theorem hashChunk_some {file : List Nat} {pos start stop : Nat}
    {bs : List Nat} {pos' : Nat}
    (h : hashChunk file pos start stop = some (bs, pos')) :
    pos = start ∧ chunkRead file start stop = some bs ∧ pos' = stop := by
  unfold hashChunk at h
  by_cases hc : pos ≠ start
  · rw [if_pos hc] at h; simp at h
  · rw [if_neg hc] at h
    rcases hr : chunkRead file start stop with _ | bs'
    · rw [hr] at h; simp at h
    · rw [hr] at h
      simp only [Option.some.injEq, Prod.mk.injEq] at h
      refine ⟨by omega, ?_, h.2.symm⟩
      exact congrArg some h.1

theorem writeLLRGo_bounds (file : List Nat) :
    ∀ (t : Table) (pos prev : Nat) (res : LLRWriteResult),
      writeLLRGo file t pos prev = some res → prev ≤ file.length →
      ∀ p e, (p, e) ∈ t → p + e.origSize ≤ file.length := by
  intro t
  induction t with
  | nil => intro _ _ _ _ _ p e hmem; simp at hmem
  | cons hd rest ih =>
    obtain ⟨q, eq⟩ := hd
    intro pos prev res h hprev p e hmem
    rw [writeLLRGo] at h
    by_cases hq : q ≠ prev
    · rw [if_pos hq] at h
      rcases hE : embedChunk file pos prev q with _ | ⟨bs, pos₁⟩
      · rw [hE] at h; simp at h
      · rw [hE] at h
        dsimp only at h
        obtain ⟨-, hcr, hpos₁⟩ := embedChunk_some hE
        have hqlen : q ≤ file.length := by
          rcases chunkRead_some_bounds file prev q bs hcr with h' | h'
          · exact absurd h'.symm hq
          · exact h'.2
        rcases hH : hashChunk file pos₁ q (q + eq.origSize) with _ | ⟨hbs, pos₂⟩
        · rw [hH] at h; simp at h
        · rw [hH] at h
          dsimp only at h
          obtain ⟨-, hcr₂, hpos₂⟩ := hashChunk_some hH
          have hqe : q + eq.origSize ≤ file.length := by
            rcases chunkRead_some_bounds file q (q + eq.origSize) hbs hcr₂
              with h' | h'
            · omega
            · exact h'.2
          rcases hR : writeLLRGo file rest pos₂ (q + eq.origSize)
            with _ | res'
          · rw [hR] at h; simp at h
          · rcases List.mem_cons.mp hmem with hhd | htl
            · obtain ⟨rfl, rfl⟩ := Prod.mk.injEq .. ▸ hhd
              exact hqe
            · exact ih pos₂ (q + eq.origSize) res' hR hqe p e htl
    · rw [if_neg hq] at h
      have hqprev : q = prev := by omega
      rcases hH : hashChunk file pos q (q + eq.origSize) with _ | ⟨hbs, pos₂⟩
      · rw [hH] at h; simp at h
      · rw [hH] at h
        dsimp only at h
        obtain ⟨-, hcr₂, hpos₂⟩ := hashChunk_some hH
        have hqe : q + eq.origSize ≤ file.length := by
          rcases chunkRead_some_bounds file q (q + eq.origSize) hbs hcr₂
            with h' | h'
          · omega
          · exact h'.2
        rcases hR : writeLLRGo file rest pos₂ (q + eq.origSize)
          with _ | res'
        · rw [hR] at h; simp at h
        · rcases List.mem_cons.mp hmem with hhd | htl
          · obtain ⟨rfl, rfl⟩ := Prod.mk.injEq .. ▸ hhd
            exact hqe
          · exact ih pos₂ (q + eq.origSize) res' hR hqe p e htl

/-- Claim C7: every entry of a reference table for which `writeLLR` completes
(which a completed compression pass requires: `compress` in `main.cpp` calls
`writeLLR` before finishing) is contained in the original file:
`origPos + origSize ≤ originalFileSize`, where `originalFileSize` is
`avio_size(inputFile) = file.length`, the value recorded in the LLR header. -/
theorem writeLLR_entries_bounded (file : List Nat) (t : Table)
    (res : LLRWriteResult) (h : writeLLR file t = some res) :
    ∀ p e, (p, e) ∈ t → p + e.origSize ≤ file.length :=
  writeLLRGo_bounds file t 0 0 res h (Nat.zero_le _)

/-- Witness for C7: a concrete completed `writeLLR` run and a concrete
entry. -/
theorem writeLLR_entries_bounded_witness :
    1 + (⟨1, 0, 0, 0⟩ : ReferenceInfo).origSize ≤ [5, 6, 7].length :=
  writeLLR_entries_bounded [5, 6, 7] [(1, ⟨1, 0, 0, 0⟩)]
    ⟨[5, 7], [5, 6, 7]⟩ (by decide) 1 ⟨1, 0, 0, 0⟩ (by decide)

theorem gapSegs_mem_bounds (N : Nat) :
    ∀ (t : Table) (prev : Nat), ChainFrom N prev t →
      ∀ s ∈ gapSegs N t prev, prev ≤ s.1 ∧ s.1 + s.2 ≤ N := by
  intro t
  induction t with
  | nil =>
    intro prev hch s hmem
    rw [gapSegs] at hmem
    by_cases heq : prev = N
    · rw [if_neg (by omega)] at hmem
      simp at hmem
    · rw [if_pos heq] at hmem
      rcases List.mem_singleton.mp hmem with rfl
      have hN : prev ≤ N := hch
      constructor
      · exact le_rfl
      · simp only []
        omega
  | cons hd rest ih =>
    obtain ⟨p, e⟩ := hd
    intro prev hch s hmem
    obtain ⟨hge, hbound, hrest⟩ := hch
    rw [gapSegs] at hmem
    by_cases heq : p = prev
    · rw [if_neg (by omega)] at hmem
      have := ih (p + e.origSize) hrest s hmem
      exact ⟨by omega, this.2⟩
    · rw [if_pos heq] at hmem
      rcases List.mem_cons.mp hmem with rfl | hmem'
      · exact ⟨le_rfl, by simp only []; omega⟩
      · have := ih (p + e.origSize) hrest s hmem'
        exact ⟨by omega, this.2⟩

theorem gapSegs_sum (N : Nat) :
    ∀ (t : Table) (prev : Nat), ChainFrom N prev t →
      ((gapSegs N t prev).map (·.2)).sum +
        (t.map (fun pe => pe.2.origSize)).sum = N - prev := by
  intro t
  induction t with
  | nil =>
    intro prev hch
    have hN : prev ≤ N := hch
    rw [gapSegs]
    by_cases heq : prev = N
    · rw [if_neg (by omega)]
      simp
      omega
    · rw [if_pos heq]
      simp
  | cons hd rest ih =>
    obtain ⟨p, e⟩ := hd
    intro prev hch
    obtain ⟨hge, hbound, hrest⟩ := hch
    have hih := ih (p + e.origSize) hrest
    rw [gapSegs]
    by_cases heq : p = prev
    · rw [if_neg (by omega)]
      simp only [List.map_cons, List.sum_cons]
      omega
    · rw [if_pos heq]
      simp only [List.map_cons, List.sum_cons]
      omega

theorem gapSegs_flatten_length (file : List Nat) (N : Nat) (hN : N = file.length) :
    ∀ (t : Table) (prev : Nat), ChainFrom N prev t →
      (((gapSegs N t prev).map (sliceF file)).flatten).length =
        ((gapSegs N t prev).map (·.2)).sum := by
  intro t prev hch
  rw [List.length_flatten]
  rw [List.map_map]
  congr 1
  apply List.map_congr_left
  intro s hmem
  have hb := (gapSegs_mem_bounds N t prev hch s hmem).2
  simp only [Function.comp_apply, sliceF]
  rw [List.length_take, List.length_drop]
  omega

/-- Claim C5: for a table satisfying no-overlap with every entry inside
`[0, originalFileSize)`, `writeLLR` completes and the byte sequence it feeds to
the hash context — gap bytes as they are embedded, referenced bytes as they are
read and discarded, in ascending `origPos` order — is exactly the whole
original file read linearly from offset 0 to `originalFileSize`.  Hence the
digest backfilled into the hash slot equals the hash of the entire original
file. -/
theorem writeLLR_hashes_whole_file (file : List Nat) (t : Table)
    (hs : TableSorted t) (hov : NoOverlap t)
    (hb : ∀ p e, (p, e) ∈ t → p + e.origSize ≤ file.length) :
    ∃ res, writeLLR file t = some res ∧ res.hashBytes = file := by
  have hch : ChainFrom file.length 0 t :=
    chainFrom_mk file.length t 0 hs hov hb
      (fun p e _ => Nat.zero_le p) (Nat.zero_le _)
  refine ⟨_, writeLLRGo_eq file t 0 hch, ?_⟩
  simp

/-- Witness for C5 at a concrete file and table. -/
theorem writeLLR_hashes_whole_file_witness :
    ∃ res, writeLLR [5, 6, 7] [(1, ⟨1, 0, 0, 0⟩)] = some res ∧
      res.hashBytes = [5, 6, 7] :=
  writeLLR_hashes_whole_file [5, 6, 7] [(1, ⟨1, 0, 0, 0⟩)]
    (by decide) (by decide)
    (by
      rintro p e h
      obtain ⟨rfl, rfl⟩ := Prod.mk.injEq .. ▸ List.mem_singleton.mp h
      decide)

/-- Claim C6: for a table satisfying no-overlap with every entry's end at most
`originalFileSize`, `writeLLR` completes and the number of bytes it appends to
the LLR gap region plus the sum of all `origSize` values equals
`originalFileSize`: gap ranges and referenced ranges partition
`[0, originalFileSize)`. -/
theorem writeLLR_partition (file : List Nat) (t : Table)
    (hs : TableSorted t) (hov : NoOverlap t)
    (hb : ∀ p e, (p, e) ∈ t → p + e.origSize ≤ file.length) :
    ∃ res, writeLLR file t = some res ∧
      res.gapBytes.length + (t.map (fun pe => pe.2.origSize)).sum =
        file.length := by
  have hch : ChainFrom file.length 0 t :=
    chainFrom_mk file.length t 0 hs hov hb
      (fun p e _ => Nat.zero_le p) (Nat.zero_le _)
  refine ⟨_, writeLLRGo_eq file t 0 hch, ?_⟩
  simp only []
  rw [gapSegs_flatten_length file file.length rfl t 0 hch]
  have := gapSegs_sum file.length t 0 hch
  omega

/-- Witness for C6 at a concrete file and table. -/
theorem writeLLR_partition_witness :
    ∃ res, writeLLR [5, 6, 7] [(1, ⟨1, 0, 0, 0⟩)] = some res ∧
      res.gapBytes.length +
        (([(1, ⟨1, 0, 0, 0⟩)] : Table).map
          (fun pe => pe.2.origSize)).sum = [5, 6, 7].length :=
  writeLLR_partition [5, 6, 7] [(1, ⟨1, 0, 0, 0⟩)]
    (by decide) (by decide)
    (by
      rintro p e h
      obtain ⟨rfl, rfl⟩ := Prod.mk.injEq .. ▸ List.mem_singleton.mp h
      decide)

/-! ## Binary serialization of `PacketReferences` (`llrfile.cpp`)

`avio_wb16/32/64` write big-endian integers (truncating to the wire width),
`avio_w8` one byte, `avio_put_str` the bytes of a C string followed by NUL.
The reader primitives return `0` at end of stream, as the `avio_r*` functions
do. -/

def beBytes : Nat → Nat → List Nat
  | 0, _ => []
  | n + 1, v => beBytes n (v / 256) ++ [v % 256]

def avio_w8 (v : Nat) : List Nat := [v % 256]

def avio_wb16 (v : Nat) : List Nat := beBytes 2 v

def avio_wb32 (v : Nat) : List Nat := beBytes 4 v

def avio_wb64 (v : Nat) : List Nat := beBytes 8 v

/-- `avio_put_str(dest, s.c_str())`: the bytes up to the first NUL, then a
NUL. -/
def avio_put_str (s : List Nat) : List Nat := s.takeWhile (· ≠ 0) ++ [0]

/-- The `uint64_t` wire image of an `int64_t` (two's complement). -/
def int64ToWire (v : Int) : Nat := (v % ((2 : Int) ^ 64)).toNat

/-- Reading a `uint64_t` back into an `int64_t`. -/
def wireToInt64 (v : Nat) : Int :=
  if v < 2 ^ 63 then (v : Int) else (v : Int) - 2 ^ 64

/-- The single byte that persists a `CodecType` (`Copy = 1, Video = 2`). -/
def codecTypeByte : CodecType → Nat
  | CodecType.Copy => 1
  | CodecType.Video => 2

/-- One iteration of the stream loop of `PacketReferences::serialize`. -/
def serializeStream (s : StreamInfo) : List Nat :=
  avio_w8 (codecTypeByte s.type) ++
    (match s.type with
     | CodecType.Video => avio_put_str s.pixelFormat
     | CodecType.Copy => [])

/-- One iteration of the table loop of `PacketReferences::serialize`. -/
def serializeRow (row : Nat × ReferenceInfo) : List Nat :=
  avio_wb64 row.1 ++ avio_wb32 row.2.origSize ++
    avio_wb32 row.2.streamIndex ++ avio_wb64 row.2.packetIndex ++
    avio_wb64 (int64ToWire row.2.pts)

/-- `PacketReferences::serialize`: stream count, stream rows, table count,
table rows in map (ascending-key) iteration order. -/
def serialize (streams : List StreamInfo) (t : Table) : List Nat :=
  avio_wb32 streams.length ++ (streams.map serializeStream).flatten ++
    avio_wb64 t.length ++ (t.map serializeRow).flatten

/-- `avio_r8`: one byte, `0` at EOF. -/
def avio_r8 : List Nat → Nat × List Nat
  | [] => (0, [])
  | b :: rest => (b, rest)

/-- `avio_rb16/32/64`: `n` bytes big-endian. -/
def readBE : Nat → List Nat → Nat × List Nat
  | 0, s => (0, s)
  | n + 1, s =>
    let (b, s₁) := avio_r8 s
    let (v, s₂) := readBE n s₁
    (b * 256 ^ n + v, s₂)

/-- `avio_get_str(src, maxlen, buf, maxlen+1)`: read characters until a NUL
(consumed, not stored) or until `maxlen` characters have been read (the NUL is
then left in the stream). -/
def avio_get_str : Nat → List Nat → List Nat × List Nat
  | 0, s => ([], s)
  | _ + 1, [] => ([], [])
  | n + 1, b :: rest =>
    if b = 0 then ([], rest)
    else
      let (str, s') := avio_get_str n rest
      (b :: str, s')

/-- The stream-table loop of `PacketReferences::deserialize`: `n` entries, a
type byte each, a pixel-format string for `Video`; any other type byte is the
`abort()` branch. -/
def readStreams : Nat → List Nat → Option (List StreamInfo × List Nat)
  | 0, s => some ([], s)
  | n + 1, s =>
    let (ty, s₁) := avio_r8 s
    if ty = 1 then
      match readStreams n s₁ with
      | none => none
      | some (l, s') => some (⟨CodecType.Copy, []⟩ :: l, s')
    else if ty = 2 then
      let (name, s₂) := avio_get_str 127 s₁
      match readStreams n s₂ with
      | none => none
      | some (l, s') => some (⟨CodecType.Video, name⟩ :: l, s')
    else none

/-- The table loop of `PacketReferences::deserialize`: `n` rows, fields read
big-endian, inserted with `m_table.emplace` (duplicates silently dropped). -/
def readRows : Nat → List Nat → Table → Table × List Nat
  | 0, s, t => (t, s)
  | n + 1, s, t =>
    let (origPos, s₁) := readBE 8 s
    let (origSize, s₂) := readBE 4 s₁
    let (streamIndex, s₃) := readBE 4 s₂
    let (packetIndex, s₄) := readBE 8 s₃
    let (pts, s₅) := readBE 8 s₄
    readRows n s₅
      (emplace origPos
        ⟨origSize, streamIndex, packetIndex, wireToInt64 pts⟩ t).1

/-- `PacketReferences::deserialize`: stream count into an `int32_t`, stream
table, row count into an `int64_t`, rows.  A count whose wire value does not
fit the signed counter makes the `while (count-- != 0)` loop run with a
negative counter, which never terminates normally; that path is `none`.
Returns the streams, the table and the unconsumed bytes. -/
def deserialize (bytes : List Nat) : Option (List StreamInfo × Table × List Nat) :=
  let (streamCount, s₁) := readBE 4 bytes
  if streamCount ≥ 2 ^ 31 then none
  else
    match readStreams streamCount s₁ with
    | none => none
    | some (streams, s₂) =>
      let (tableCount, s₃) := readBE 8 s₂
      if tableCount ≥ 2 ^ 63 then none
      else
        let (t, s₄) := readRows tableCount s₃ []
        some (streams, t, s₄)

/-! ## Building tables by `addPacketReference` calls (for C9) -/

/-- The arguments of one `addPacketReference` call. -/
structure AddCall where
  streamIndex : Nat
  packetIndex : Nat
  pts : Int
  origPos : Nat
  origSize : Nat
deriving DecidableEq, Repr

/-- The table row an `AddCall` inserts. -/
def AddCall.pair (c : AddCall) : Nat × ReferenceInfo :=
  (c.origPos, ⟨c.origSize, c.streamIndex, c.packetIndex, c.pts⟩)

def buildTableGo : Table → List AddCall → Option Table
  | t, [] => some t
  | t, c :: rest =>
    match addPacketReference t c.streamIndex c.packetIndex c.pts
        c.origPos c.origSize with
    | none => none
    | some t' => buildTableGo t' rest

/-- Run a sequence of `addPacketReference` calls on an initially empty
`PacketReferences` (its lifecycle in `compress`); `none` if any call halts. -/
def buildTable (calls : List AddCall) : Option Table :=
  buildTableGo [] calls

theorem addPacketReference_some_parts {t : Table} {si pi : Nat} {pts : Int}
    {pos sz : Nat} {t' : Table}
    (h : addPacketReference t si pi pts pos sz = some t') :
    (emplace pos ⟨sz, si, pi, pts⟩ t).2 = true ∧
      t' = (emplace pos ⟨sz, si, pi, pts⟩ t).1 := by
  have hdef : addPacketReference t si pi pts pos sz =
      (if (emplace pos (⟨sz, si, pi, pts⟩ : ReferenceInfo) t).2 then
        match upperKey (emplace pos (⟨sz, si, pi, pts⟩ : ReferenceInfo) t).1
            pos with
        | some nk =>
          if nk < pos + sz then none
          else some (emplace pos (⟨sz, si, pi, pts⟩ : ReferenceInfo) t).1
        | none => some (emplace pos (⟨sz, si, pi, pts⟩ : ReferenceInfo) t).1
      else none) := rfl
  rw [hdef] at h
  rcases hins : (emplace pos (⟨sz, si, pi, pts⟩ : ReferenceInfo) t).2
    with _ | _
  · rw [hins] at h; simp at h
  · rw [hins] at h
    simp only [if_true] at h
    refine ⟨rfl, ?_⟩
    rcases hk : upperKey (emplace pos (⟨sz, si, pi, pts⟩ : ReferenceInfo) t).1
      pos with _ | nk
    · rw [hk] at h
      dsimp only at h
      injection h with h; exact h.symm
    · rw [hk] at h
      dsimp only at h
      by_cases hlt : nk < pos + sz
      · rw [if_pos hlt] at h; exact absurd h (by simp)
      · rw [if_neg hlt] at h; injection h with h; exact h.symm

theorem buildTableGo_spec :
    ∀ (calls : List AddCall) (t : Table), TableSorted t →
      ∀ t', buildTableGo t calls = some t' →
        TableSorted t' ∧ t'.Perm (calls.map AddCall.pair ++ t) := by
  intro calls
  induction calls with
  | nil =>
    intro t hs t' h
    rw [buildTableGo] at h
    injection h with h
    subst h
    exact ⟨hs, by simp⟩
  | cons c rest ih =>
    intro t hs t' h
    rw [buildTableGo] at h
    rcases hA : addPacketReference t c.streamIndex c.packetIndex c.pts
        c.origPos c.origSize with _ | t₁
    · rw [hA] at h; simp at h
    · rw [hA] at h
      dsimp only at h
      obtain ⟨hins, ht₁⟩ := addPacketReference_some_parts hA
      have hs₁ : TableSorted t₁ := by
        rw [ht₁]; exact emplace_sorted _ _ t hs hins
      have hperm₁ : t₁.Perm (AddCall.pair c :: t) := by
        rw [ht₁]; exact emplace_perm _ _ t hins
      obtain ⟨hs', hperm'⟩ := ih t₁ hs₁ t' h
      refine ⟨hs', ?_⟩
      have step₁ : t'.Perm (rest.map AddCall.pair ++ (AddCall.pair c :: t)) :=
        hperm'.trans (List.Perm.append_left _ hperm₁)
      have step₂ : t'.Perm (AddCall.pair c :: (rest.map AddCall.pair ++ t)) :=
        step₁.trans List.perm_middle
      simpa using step₂

/-- Claim C9: serialization is deterministic and insertion-order independent.
For any fixed streams list, two tables built by permuted sequences of
successful `addPacketReference` calls serialize to identical byte sequences,
and the rows are emitted in strictly ascending `origPos` order. -/
theorem serialize_insertion_order_independent (streams : List StreamInfo)
    (l₁ l₂ : List AddCall) (t₁ t₂ : Table) (hperm : l₁.Perm l₂)
    (h₁ : buildTable l₁ = some t₁) (h₂ : buildTable l₂ = some t₂) :
    serialize streams t₁ = serialize streams t₂ ∧
      (t₁.map Prod.fst).Sorted (· < ·) := by
  haveI : IsAntisymm (Nat × ReferenceInfo) (fun a b => a.1 < b.1) :=
    ⟨fun a b hab hba => absurd (lt_trans hab hba) (lt_irrefl _)⟩
  obtain ⟨hs₁, hp₁⟩ := buildTableGo_spec l₁ [] (by constructor) t₁ h₁
  obtain ⟨hs₂, hp₂⟩ := buildTableGo_spec l₂ [] (by constructor) t₂ h₂
  have hp : t₁.Perm t₂ := by
    refine hp₁.trans (.trans ?_ hp₂.symm)
    simpa using hperm.map AddCall.pair
  have heq : t₁ = t₂ := List.eq_of_perm_of_sorted hp hs₁ hs₂
  subst heq
  refine ⟨rfl, ?_⟩
  exact List.pairwise_map.mpr hs₁

/-- Witness for C9: the same two reference rows inserted in the two opposite
orders serialize identically. -/
theorem serialize_insertion_order_independent_witness :
    serialize [⟨CodecType.Copy, []⟩]
        [(0, ⟨3, 0, 0, 0⟩), (10, ⟨2, 1, 1, 5⟩)] =
      serialize [⟨CodecType.Copy, []⟩]
        [(0, ⟨3, 0, 0, 0⟩), (10, ⟨2, 1, 1, 5⟩)] ∧
      (([(0, (⟨3, 0, 0, 0⟩ : ReferenceInfo)),
          (10, ⟨2, 1, 1, 5⟩)].map Prod.fst).Sorted (· < ·)) :=
  serialize_insertion_order_independent [⟨CodecType.Copy, []⟩]
    [⟨0, 0, 0, 0, 3⟩, ⟨1, 1, 5, 10, 2⟩] [⟨1, 1, 5, 10, 2⟩, ⟨0, 0, 0, 0, 3⟩]
    _ _ (by decide) (by decide) (by decide)

/-! ## Round trip of the binary encoding (C10) -/

theorem foldl_be_shift (bs : List Nat) :
    ∀ a : Nat, bs.foldl (fun x y => x * 256 + y) a =
      a * 256 ^ bs.length + bs.foldl (fun x y => x * 256 + y) 0 := by
  induction bs with
  | nil => intro a; simp
  | cons b bs ih =>
    intro a
    simp only [List.foldl_cons, List.length_cons]
    rw [ih (a * 256 + b)]
    simp only [Nat.zero_mul, Nat.zero_add]
    rw [ih b]
    ring

theorem beBytes_length : ∀ (n v : Nat), (beBytes n v).length = n := by
  intro n
  induction n with
  | zero => intro v; simp [beBytes]
  | succ n ih => intro v; simp [beBytes, ih]

theorem beBytes_foldl : ∀ (n v : Nat), v < 256 ^ n →
    (beBytes n v).foldl (fun x y => x * 256 + y) 0 = v := by
  intro n
  induction n with
  | zero =>
    intro v h
    interval_cases v
    simp [beBytes]
  | succ n ih =>
    intro v h
    rw [beBytes, List.foldl_append]
    have hdiv : v / 256 < 256 ^ n := by
      rw [Nat.div_lt_iff_lt_mul (by norm_num)]
      calc v < 256 ^ (n + 1) := h
        _ = 256 ^ n * 256 := by ring
    rw [ih (v / 256) hdiv]
    simp only [List.foldl_cons, List.foldl_nil]
    omega

theorem readBE_exact :
    ∀ (bs rest : List Nat),
      readBE bs.length (bs ++ rest) =
        (bs.foldl (fun x y => x * 256 + y) 0, rest) := by
  intro bs
  induction bs with
  | nil => intro rest; simp [readBE]
  | cons b bs ih =>
    intro rest
    show readBE (bs.length + 1) (b :: (bs ++ rest)) = _
    rw [readBE]
    simp only [avio_r8]
    rw [ih rest]
    simp only [List.foldl_cons, Nat.zero_mul, Nat.zero_add]
    rw [foldl_be_shift bs b]

theorem readBE_beBytes (n v : Nat) (rest : List Nat) (h : v < 256 ^ n) :
    readBE n (beBytes n v ++ rest) = (v, rest) := by
  have hlen := beBytes_length n v
  have hx := readBE_exact (beBytes n v) rest
  rw [hlen] at hx
  rw [hx, beBytes_foldl n v h]

theorem avio_put_str_eq (name : List Nat) (h : 0 ∉ name) :
    avio_put_str name = name ++ [0] := by
  unfold avio_put_str
  congr 1
  induction name with
  | nil => rfl
  | cons b bs ih =>
    have hb : b ≠ 0 := fun hb => h (hb ▸ List.mem_cons_self b bs)
    have hbs : 0 ∉ bs := fun hm => h (List.mem_cons_of_mem b hm)
    simp only [List.takeWhile_cons]
    rw [if_pos (by simpa using hb)]
    rw [ih hbs]

theorem avio_get_str_exact :
    ∀ (name : List Nat) (maxlen : Nat) (rest : List Nat), 0 ∉ name →
      name.length < maxlen →
      avio_get_str maxlen (name ++ 0 :: rest) = (name, rest) := by
  intro name
  induction name with
  | nil =>
    intro maxlen rest _ hlen
    match maxlen, hlen with
    | m + 1, _ => simp [avio_get_str]
  | cons b bs ih =>
    intro maxlen rest h hlen
    have hb : ¬(b = 0) := fun hb => h (hb ▸ List.mem_cons_self b bs)
    have hbs : 0 ∉ bs := fun hm => h (List.mem_cons_of_mem b hm)
    match maxlen, hlen with
    | m + 1, hlen =>
      show avio_get_str (m + 1) (b :: (bs ++ 0 :: rest)) = _
      rw [avio_get_str, if_neg hb, ih m rest hbs (by simpa using hlen)]

/-- The values a `StreamInfo` must hold for its wire image to parse back:
`Copy` rows carry no pixel format; `Video` rows carry a non-empty NUL-free
pixel-format name of at most 126 bytes (`avio_get_str` is called with
`maxlen = 127` and consumes the terminating NUL only when the name is shorter
than 127 bytes). -/
def StreamWF (s : StreamInfo) : Prop :=
  (s.type = CodecType.Copy → s.pixelFormat = []) ∧
  (s.type = CodecType.Video →
    s.pixelFormat ≠ [] ∧ s.pixelFormat.length ≤ 126 ∧ 0 ∉ s.pixelFormat)

instance (s : StreamInfo) : Decidable (StreamWF s) := by
  unfold StreamWF
  infer_instance

/-- The values a table row must hold to fit the wire widths
(`origSize`/`streamIndex` as u32, `origPos`/`packetIndex` as u64, `pts` as
i64). -/
def RowWF (row : Nat × ReferenceInfo) : Prop :=
  row.1 < 2 ^ 64 ∧ row.2.origSize < 2 ^ 32 ∧ row.2.streamIndex < 2 ^ 32 ∧
    row.2.packetIndex < 2 ^ 64 ∧ -(2 : Int) ^ 63 ≤ row.2.pts ∧
    row.2.pts < 2 ^ 63

instance (row : Nat × ReferenceInfo) : Decidable (RowWF row) := by
  unfold RowWF
  infer_instance

theorem wire_int64_round (v : Int) (h₁ : -(2 : Int) ^ 63 ≤ v)
    (h₂ : v < 2 ^ 63) : wireToInt64 (int64ToWire v) = v := by
  unfold wireToInt64 int64ToWire
  have h64 : (2 : Int) ^ 64 = 18446744073709551616 := by norm_num
  have h63 : (2 : Int) ^ 63 = 9223372036854775808 := by norm_num
  have hn63 : (2 : Nat) ^ 63 = 9223372036854775808 := by norm_num
  rw [h64] at *
  rw [h63] at *
  rw [hn63]
  split_ifs with h
  · omega
  · omega

theorem int64ToWire_lt (v : Int) : int64ToWire v < 2 ^ 64 := by
  unfold int64ToWire
  have h64 : (2 : Int) ^ 64 = 18446744073709551616 := by norm_num
  have hn64 : (2 : Nat) ^ 64 = 18446744073709551616 := by norm_num
  rw [h64, hn64]
  omega

theorem readStreams_exact :
    ∀ (streams : List StreamInfo) (rest : List Nat),
      (∀ s ∈ streams, StreamWF s) →
      readStreams streams.length
          ((streams.map serializeStream).flatten ++ rest) =
        some (streams, rest) := by
  intro streams
  induction streams with
  | nil => intro rest _; simp [readStreams]
  | cons s ss ih =>
    intro rest hwf
    have hwfs := hwf s (List.mem_cons_self _ _)
    have hwfss : ∀ x ∈ ss, StreamWF x :=
      fun x hx => hwf x (List.mem_cons_of_mem _ hx)
    have hih := ih rest hwfss
    rcases hty : s.type with _ | _
    · -- Copy
      have hpf : s.pixelFormat = [] := hwfs.1 hty
      have hser : serializeStream s = [1] := by
        unfold serializeStream
        rw [hty]
        rfl
      show readStreams (ss.length + 1) _ = _
      rw [List.map_cons, List.flatten_cons, hser]
      rw [readStreams]
      simp only [List.cons_append, List.nil_append, List.singleton_append,
        List.append_assoc, avio_r8, if_true]
      rw [hih]
      have hsval : s = ⟨CodecType.Copy, []⟩ := by
        cases s with
        | mk ty pf =>
          simp only at hty hpf
          rw [hty, hpf]
      rw [hsval]
    · -- Video
      obtain ⟨hne, hlen, hnul⟩ := hwfs.2 hty
      have hser : serializeStream s = 2 :: (s.pixelFormat ++ [0]) := by
        unfold serializeStream
        rw [hty, avio_put_str_eq s.pixelFormat hnul]
        rfl
      show readStreams (ss.length + 1) _ = _
      rw [List.map_cons, List.flatten_cons, hser]
      rw [readStreams]
      simp only [List.cons_append, List.nil_append, List.singleton_append,
        List.append_assoc, avio_r8, if_true]
      have hstr : avio_get_str 127
          (s.pixelFormat ++ 0 :: ((ss.map serializeStream).flatten ++ rest)) =
          (s.pixelFormat, (ss.map serializeStream).flatten ++ rest) :=
        avio_get_str_exact s.pixelFormat 127 _ hnul (by omega)
      rw [hstr]
      dsimp only
      rw [hih]
      have hsval : s = ⟨CodecType.Video, s.pixelFormat⟩ := by
        cases s with
        | mk ty pf => simp only at hty; rw [hty]
      dsimp only
      rw [← hsval, if_neg (show ¬(2 = 1) by decide)]

theorem emplace_append_max (k : Nat) (v : ReferenceInfo) :
    ∀ (acc : Table), (∀ p ∈ acc, p.1 < k) →
      emplace k v acc = (acc ++ [(k, v)], true) := by
  intro acc
  induction acc with
  | nil => intro _; rfl
  | cons hd rest ih =>
    obtain ⟨k', v'⟩ := hd
    intro h
    have hk' : k' < k := h (k', v') (List.mem_cons_self _ _)
    rw [emplace, if_neg (by omega), if_neg (by omega)]
    rw [ih (fun p hp => h p (List.mem_cons_of_mem _ hp))]
    rfl

theorem readRows_exact :
    ∀ (rows : Table) (acc : Table) (rest : List Nat),
      TableSorted (acc ++ rows) → (∀ row ∈ rows, RowWF row) →
      readRows rows.length ((rows.map serializeRow).flatten ++ rest) acc =
        (acc ++ rows, rest) := by
  intro rows
  induction rows with
  | nil => intro acc rest _ _; simp [readRows]
  | cons row rows ih =>
    obtain ⟨k, v⟩ := row
    intro acc rest hsort hwf
    obtain ⟨hk, hsz, hsi, hpi, hpts₁, hpts₂⟩ := hwf (k, v) (List.mem_cons_self _ _)
    dsimp only at hk hsz hsi hpi hpts₁ hpts₂
    have hwf' : ∀ r ∈ rows, RowWF r :=
      fun r hr => hwf r (List.mem_cons_of_mem _ hr)
    have h2856 : (256 : Nat) ^ 8 = 2 ^ 64 := by norm_num
    have h2854 : (256 : Nat) ^ 4 = 2 ^ 32 := by norm_num
    have hrow : serializeRow (k, v) =
        beBytes 8 k ++ (beBytes 4 v.origSize ++ (beBytes 4 v.streamIndex ++
          (beBytes 8 v.packetIndex ++ beBytes 8 (int64ToWire v.pts)))) := by
      unfold serializeRow avio_wb64 avio_wb32
      simp [List.append_assoc]
    show readRows (rows.length + 1) _ acc = _
    rw [List.map_cons, List.flatten_cons, hrow]
    rw [readRows]
    simp only [List.append_assoc]
    rw [readBE_beBytes 8 k _ (by omega)]
    dsimp only
    rw [readBE_beBytes 4 v.origSize _ (by omega)]
    dsimp only
    rw [readBE_beBytes 4 v.streamIndex _ (by omega)]
    dsimp only
    rw [readBE_beBytes 8 v.packetIndex _ (by omega)]
    dsimp only
    rw [readBE_beBytes 8 (int64ToWire v.pts) _
      (by rw [h2856]; exact int64ToWire_lt v.pts)]
    dsimp only
    rw [wire_int64_round v.pts hpts₁ hpts₂]
    have hvs : (⟨v.origSize, v.streamIndex, v.packetIndex, v.pts⟩ :
        ReferenceInfo) = v := rfl
    rw [hvs]
    have hmax : ∀ p ∈ acc, p.1 < k := by
      intro p hp
      have := (List.pairwise_append.mp hsort).2.2 p hp (k, v)
        (List.mem_cons_self _ _)
      exact this
    rw [emplace_append_max k v acc hmax]
    dsimp only
    have hsort' : TableSorted ((acc ++ [(k, v)]) ++ rows) := by
      rw [List.append_assoc, List.singleton_append]
      exact hsort
    rw [ih (acc ++ [(k, v)]) rest hsort' hwf']
    rw [List.append_assoc, List.singleton_append]

set_option maxRecDepth 8192 in
/-- C10 counterexample: a `Video` stream whose pixel-format name is exactly
127 bytes — non-empty and "at most 127 bytes" as the claim allows —
does not round-trip: `avio_get_str(maxlen = 127)` consumes the 127 name bytes
but leaves the terminating NUL in the stream, so every later field is
misaligned; here the one-row table (origSize `2` and streamIndex `3` both
representable as u32) is read back as an *empty* table. -/
theorem deserialize_serialize_misaligned_at_127 :
    deserialize
        (serialize [⟨CodecType.Video, List.replicate 127 65⟩]
          [(0, ⟨2, 3, 4, 5⟩)]) =
      some ([⟨CodecType.Video, List.replicate 127 65⟩], [],
        [1, 0, 0, 0, 0, 0, 0, 0, 0, 0, 0, 0, 2, 0, 0, 0, 3, 0, 0, 0, 0,
          0, 0, 0, 4, 0, 0, 0, 0, 0, 0, 0, 5]) ∧
      ([] : Table) ≠ [(0, ⟨2, 3, 4, 5⟩)] := by
  constructor
  · decide
  · decide

/-- Claim C10 (amended): for every `PacketReferences` whose values fit the
wire widths — each `origSize` and `streamIndex` representable as u32,
`origPos` and `packetIndex` as u64, `pts` as i64, stream and row counts
fitting their signed readers, every stream type `Copy` or `Video`, and each
pixel-format name non-empty, NUL-free and at most **126** bytes —
`deserialize` applied to the output of `serialize` reproduces the same streams
sequence and the same table mapping (consuming the bytes exactly). -/
theorem deserialize_serialize_id (streams : List StreamInfo) (t : Table)
    (hs : TableSorted t) (hsw : ∀ s ∈ streams, StreamWF s)
    (hsc : streams.length < 2 ^ 31) (htc : t.length < 2 ^ 63)
    (hrw : ∀ row ∈ t, RowWF row) :
    deserialize (serialize streams t) = some (streams, t, []) := by
  unfold serialize deserialize avio_wb32 avio_wb64
  simp only [List.append_assoc]
  rw [readBE_beBytes 4 streams.length _ (by norm_num; omega)]
  dsimp only
  rw [if_neg (by omega)]
  rw [readStreams_exact streams _ hsw]
  dsimp only
  rw [readBE_beBytes 8 t.length _ (by norm_num; omega)]
  dsimp only
  rw [if_neg (by omega)]
  have hrr := readRows_exact t [] [] (by simpa using hs) hrw
  rw [List.append_nil] at hrr
  rw [hrr]
  simp

/-- Witness for C10 at a concrete streams list and table (with a negative
`pts` to exercise the two's-complement wire image). -/
theorem deserialize_serialize_id_witness :
    deserialize
        (serialize [⟨CodecType.Video, [97]⟩, ⟨CodecType.Copy, []⟩]
          [(0, ⟨2, 3, 4, -1⟩)]) =
      some ([⟨CodecType.Video, [97]⟩, ⟨CodecType.Copy, []⟩],
        [(0, ⟨2, 3, 4, -1⟩)], []) :=
  deserialize_serialize_id [⟨CodecType.Video, [97]⟩, ⟨CodecType.Copy, []⟩]
    [(0, ⟨2, 3, 4, -1⟩)] (by decide) (by decide) (by decide) (by decide)
    (by decide)

/-! ## The decompression pass reverse index (`decompress`, `main.cpp`)

A packet read from the compressed container is abstracted to the fields the
loop uses: `stream_index`, `pts` and payload; `decodePacket` (the per-stream
`Decoder`) is a function argument.  Writing `uncompressedData` at `origPos` in
the output file is recorded as the pair `(origPos, bytes)`. -/

/-- An `AVPacket` as consumed by the decompression loop. -/
structure CPacket where
  stream_index : Nat
  pts : Int
  data : List Nat
deriving DecidableEq, Repr

/-- Key of the reverse index: `(streamIndex, packetIndex, pts)`. -/
abbrev RevKey := Nat × Nat × Int

/-- `std::map<tuple<int, size_t, int64_t>, pair<int64_t, int>> reverseRefs`. -/
abbrev RevRefs := List (RevKey × (Nat × Nat))

/-- `reverseRefs.find(key)`: the value of the unique entry with this key. -/
def findRev (k : RevKey) : RevRefs → Option (Nat × Nat)
  | [] => none
  | (k', v) :: rest => if k' = k then some v else findRev k rest

/-- `reverseRefs.erase(it)`: drop the entry with this key. -/
def eraseRev (k : RevKey) : RevRefs → RevRefs
  | [] => []
  | (k', v) :: rest => if k' = k then rest else (k', v) :: eraseRev k rest

/-- `reverseRefs.insert(...)`: keep the existing entry when the key is already
present.  (`std::map` stores entries in key order; the decompression loop only
ever looks up, erases and tests emptiness, so the entry order is
irrelevant.) -/
def insertRevRef (k : RevKey) (v : Nat × Nat) (m : RevRefs) : RevRefs :=
  if (findRev k m).isSome then m else m ++ [(k, v)]

/-- The reverse packet mapping built by `decompress` from the deserialized
table: `(streamIndex, packetIndex, pts) → (origPos, origSize)`. -/
def buildReverseRefs (t : Table) : RevRefs :=
  t.foldl
    (fun m pe =>
      insertRevRef (pe.2.streamIndex, pe.2.packetIndex, pe.2.pts)
        (pe.1, pe.2.origSize) m)
    []

/-- The packet loop of `decompress` (`main.cpp`): per-stream packet counters
(`packetIndexPerStream`, default 0, post-incremented), reverse-index lookup
(miss ⇒ fatal "Failed to find destination block"), decode, size check against
`origSize` (mismatch ⇒ fatal), write at `origPos`, erase the entry; after EOF
the reverse index must be empty (leftover ⇒ fatal "source packets are
missing"). -/
def decompressGo (decode : Nat → CPacket → List Nat) :
    List CPacket → RevRefs → (Nat → Nat) → Option (List (Nat × List Nat))
  | [], revRefs, _ => if revRefs.isEmpty then some [] else none
  | packet :: rest, revRefs, packetIndexPerStream =>
    let packetIndex := packetIndexPerStream packet.stream_index
    let counters : Nat → Nat := fun i =>
      if i = packet.stream_index then packetIndex + 1
      else packetIndexPerStream i
    match findRev (packet.stream_index, packetIndex, packet.pts) revRefs with
    | none => none
    | some (origPos, origSize) =>
      let uncompressedData := decode packet.stream_index packet
      if uncompressedData.length ≠ origSize then none
      else
        match decompressGo decode rest
            (eraseRev (packet.stream_index, packetIndex, packet.pts) revRefs)
            counters with
        | none => none
        | some ws => some ((origPos, uncompressedData) :: ws)

/-- The decompression pass over the demuxed packets of the compressed
container, given the deserialized reference table. -/
def decompress (decode : Nat → CPacket → List Nat)
    (packets : List CPacket) (t : Table) : Option (List (Nat × List Nat)) :=
  decompressGo decode packets (buildReverseRefs t) (fun _ => 0)

/-- The `(streamIndex, packetIndex, pts)` key of each packet, with the
per-stream counters threaded exactly as in the loop. -/
def packetKeys : List CPacket → (Nat → Nat) → List RevKey
  | [], _ => []
  | p :: rest, c =>
    (p.stream_index, c p.stream_index, p.pts) ::
      packetKeys rest
        (fun i => if i = p.stream_index then c p.stream_index + 1 else c i)

theorem revRefs_perm_of_findRev {k : RevKey} {v : Nat × Nat} :
    ∀ (m : RevRefs), findRev k m = some v →
      (m.map Prod.fst).Perm (k :: (eraseRev k m).map Prod.fst) := by
  intro m
  induction m with
  | nil => intro h; simp [findRev] at h
  | cons hd rest ih =>
    obtain ⟨k', v'⟩ := hd
    intro h
    by_cases hk : k' = k
    · subst hk
      rw [eraseRev, if_pos rfl]
      simp
    · rw [findRev, if_neg hk] at h
      rw [eraseRev, if_neg hk]
      simp only [List.map_cons]
      exact (List.Perm.cons k' (ih h)).trans (List.Perm.swap _ _ _)

theorem decompressGo_consumes (decode : Nat → CPacket → List Nat) :
    ∀ (packets : List CPacket) (revRefs : RevRefs) (counters : Nat → Nat)
      (ws : List (Nat × List Nat)),
      decompressGo decode packets revRefs counters = some ws →
      (packetKeys packets counters).Perm (revRefs.map Prod.fst) := by
  intro packets
  induction packets with
  | nil =>
    intro revRefs counters ws h
    rw [decompressGo] at h
    by_cases he : revRefs.isEmpty
    · rw [List.isEmpty_iff.mp he]
      exact List.Perm.refl _
    · rw [if_neg he] at h
      simp at h
  | cons p rest ih =>
    intro revRefs counters ws h
    rw [decompressGo] at h
    rcases hf : findRev (p.stream_index, counters p.stream_index, p.pts)
        revRefs with _ | ⟨origPos, origSize⟩
    · rw [hf] at h; simp at h
    · rw [hf] at h
      dsimp only at h
      by_cases hsz : (decode p.stream_index p).length ≠ origSize
      · rw [if_pos hsz] at h; simp at h
      · rw [if_neg hsz] at h
        rcases hr : decompressGo decode rest
            (eraseRev (p.stream_index, counters p.stream_index, p.pts)
              revRefs)
            (fun i => if i = p.stream_index
              then counters p.stream_index + 1 else counters i)
          with _ | ws'
        · rw [hr] at h; simp at h
        · have hperm := ih _ _ ws' hr
          rw [packetKeys]
          refine (List.Perm.cons _ hperm).trans ?_
          exact (revRefs_perm_of_findRev revRefs hf).symm

/-- Claim C8: during the decompression pass every packet read from the
compressed container must match a reverse-index entry keyed by
`(streamIndex, per-stream packetIndex, pts)` (a miss is fatal), the matched
entry is erased after its bytes are written, and after EOF the reverse index
must be empty (a leftover entry is fatal) — hence on a successful run the
packets' key sequence is a permutation of the reverse index's keys: every
reverse-index entry is consumed by exactly one packet. -/
theorem decompress_consumes_reverse_index (decode : Nat → CPacket → List Nat)
    (packets : List CPacket) (t : Table) (ws : List (Nat × List Nat))
    (h : decompress decode packets t = some ws) :
    (packetKeys packets (fun _ => 0)).Perm
      ((buildReverseRefs t).map Prod.fst) :=
  decompressGo_consumes decode packets (buildReverseRefs t) (fun _ => 0) ws h

/-- Witness for C8: one video-free packet consuming the single reverse-index
entry, with the `Copy` decoder (payload returned verbatim). -/
theorem decompress_consumes_reverse_index_witness :
    (packetKeys [⟨0, 7, [9, 9]⟩] (fun _ => 0)).Perm
      ((buildReverseRefs [(0, ⟨2, 0, 0, 7⟩)]).map Prod.fst) :=
  decompress_consumes_reverse_index (fun _ p => p.data)
    [⟨0, 7, [9, 9]⟩] [(0, ⟨2, 0, 0, 7⟩)] [(0, [9, 9])] (by decide)

/-! ## The LLR reader (`readLLR`, `llrfile.cpp`)

After `readLLRInfo` and `deserialize`, `readLLR` walks the table exactly like
the writer and, for every gap range, reads its bytes sequentially from the LLR
file (`loadChunk`) and writes them at the range's offset in the output file.
The unread remainder of the LLR file is threaded through as `stream`. -/

/-- The `while (start != end)` loop of `loadChunk`: take up to
`LLR_BUFFER_SIZE` bytes at a time from the LLR stream (premature EOF is
fatal), to be written at `[start, stop)` of the output.  Returns the bytes
and the remaining stream. -/
def llrReadGo : List Nat → Nat → Nat → Nat → Option (List Nat × List Nat)
  | stream, fuel, start, stop =>
    if start = stop then some ([], stream)
    else
      match fuel with
      | 0 => none
      | fuel + 1 =>
        let r := min (min LLR_BUFFER_SIZE (stop - start)) stream.length
        if r = 0 then none
        else
          match llrReadGo (stream.drop r) fuel (start + r) stop with
          | none => none
          | some (bs, rest) => some (stream.take r ++ bs, rest)

/-- `loadChunk(start, end)` of `readLLR`: seek the output to `start`, then
transfer `stop - start` bytes from the LLR stream. -/
def loadChunk (stream : List Nat) (start stop : Nat) :
    Option (List Nat × List Nat) :=
  llrReadGo stream (stop - start) start stop

/-- The gap-restoring sweep of `readLLR` over the deserialized table (same
`prevOffset` walk as the writer), producing the `(offset, bytes)` writes into
the output file. -/
def readLLRGo :
    List Nat → Table → Nat → Nat → Option (List (Nat × List Nat) × List Nat)
  | stream, [], prev, N =>
    if prev ≠ N then
      match loadChunk stream prev N with
      | none => none
      | some (bs, rest) => some ([(prev, bs)], rest)
    else some ([], stream)
  | stream, (origPos, e) :: rest, prev, N =>
    if origPos ≠ prev then
      match loadChunk stream prev origPos with
      | none => none
      | some (bs, s₁) =>
        match readLLRGo s₁ rest (origPos + e.origSize) N with
        | none => none
        | some (ws, s₂) => some ((prev, bs) :: ws, s₂)
    else readLLRGo stream rest (origPos + e.origSize) N

theorem llrReadGo_eq :
    ∀ (fuel : Nat) (stream : List Nat) (start stop : Nat),
      stop - start ≤ fuel → start ≤ stop → stop - start ≤ stream.length →
      llrReadGo stream fuel start stop =
        some (stream.take (stop - start), stream.drop (stop - start)) := by
  intro fuel
  induction fuel with
  | zero =>
    intro stream start stop hf hle hlen
    have : start = stop := by omega
    subst this
    simp [llrReadGo]
  | succ fuel ih =>
    intro stream start stop hf hle hlen
    by_cases heq : start = stop
    · subst heq
      simp [llrReadGo]
    · have hlt : start < stop := by omega
      have hr1 : 1 ≤ min (min LLR_BUFFER_SIZE (stop - start))
          stream.length := by
        have : 1 ≤ LLR_BUFFER_SIZE := by decide
        omega
      rw [llrReadGo]
      rw [if_neg heq]
      set r := min (min LLR_BUFFER_SIZE (stop - start)) stream.length
        with hrdef
      have hrne : ¬(r = 0) := by omega
      rw [if_neg hrne]
      have hrle : r ≤ stop - start := by omega
      have hrec := ih (stream.drop r) (start + r) stop (by omega) (by omega)
        (by rw [List.length_drop]; omega)
      rw [hrec]
      dsimp only
      have hd : (stream.drop r).take (stop - (start + r)) =
          (stream.drop r).take (stop - start - r) := by
        congr 1
        omega
      have hsplit : stream.take (stop - start) =
          stream.take r ++ (stream.drop r).take (stop - start - r) := by
        rw [← List.take_add]
        congr 1
        omega
      have hdrop : (stream.drop r).drop (stop - (start + r)) =
          stream.drop (stop - start) := by
        rw [List.drop_drop]
        congr 1
        omega
      rw [hd, hdrop, ← hsplit]

/-- Under the chain invariant, the reader's sweep over a stream beginning with
exactly the writer's gap bytes restores every gap range at its offset and
consumes exactly those bytes. -/
theorem readLLRGo_eq (file : List Nat) :
    ∀ (t : Table) (prev : Nat), ChainFrom file.length prev t →
      ∀ (tail : List Nat),
        readLLRGo (((gapSegs file.length t prev).map (sliceF file)).flatten
            ++ tail) t prev file.length =
          some ((gapSegs file.length t prev).map
            (fun s => (s.1, sliceF file s)), tail) := by
  intro t
  induction t with
  | nil =>
    intro prev hch tail
    have hN : prev ≤ file.length := hch
    by_cases heq : prev = file.length
    · subst heq
      rw [gapSegs, if_neg (by omega)]
      rw [readLLRGo, if_neg (by omega)]
      simp
    · rw [gapSegs, if_pos heq]
      rw [readLLRGo, if_pos heq]
      have hslice : (sliceF file (prev, file.length - prev)).length =
          file.length - prev := by
        unfold sliceF
        rw [List.length_take, List.length_drop]
        omega
      rw [List.map_cons, List.map_nil, List.flatten_cons, List.flatten_nil,
        List.append_nil]
      unfold loadChunk
      rw [llrReadGo_eq (file.length - prev) _ prev file.length le_rfl
        (by omega)
        (by rw [List.length_append, hslice]; omega)]
      rw [List.take_left' hslice, List.drop_left' hslice]
      rfl
  | cons hd rest ih =>
    obtain ⟨p, e⟩ := hd
    intro prev hch tail
    obtain ⟨hge, hbound, hrest⟩ := hch
    by_cases heq : p = prev
    · subst heq
      rw [gapSegs, if_neg (by omega)]
      rw [readLLRGo, if_neg (by omega)]
      exact ih (p + e.origSize) hrest tail
    · rw [gapSegs, if_pos heq]
      rw [readLLRGo, if_pos heq]
      have hslice : (sliceF file (prev, p - prev)).length = p - prev := by
        unfold sliceF
        rw [List.length_take, List.length_drop]
        omega
      rw [List.map_cons, List.flatten_cons, List.append_assoc]
      unfold loadChunk
      rw [llrReadGo_eq (p - prev) _ prev p le_rfl (by omega)
        (by rw [List.length_append, hslice]; omega)]
      rw [List.take_left' hslice, List.drop_left' hslice]
      dsimp only
      rw [ih (p + e.origSize) hrest tail]
      rfl

/-! ## Positioned writes into the output file

`seekOrFail(outputFile, pos)` followed by writing `bytes` (via `avio_write` in
`loadChunk`, via `writeInChunks` in the packet loop) overwrites the byte range
`[pos, pos + bytes.length)` of the output file; in a successful run every such
range lies inside `[0, originalFileSize)`. -/

def applyWrite (file : List Nat) (pos : Nat) (bytes : List Nat) : List Nat :=
  file.take pos ++ (bytes ++ file.drop (pos + bytes.length))

def applyWrites (file : List Nat) (ws : List (Nat × List Nat)) : List Nat :=
  ws.foldl (fun f w => applyWrite f w.1 w.2) file

/-- Write `w` covers output offset `i`. -/
def covers (w : Nat × List Nat) (i : Nat) : Prop :=
  w.1 ≤ i ∧ i < w.1 + w.2.length

instance (w : Nat × List Nat) (i : Nat) : Decidable (covers w i) := by
  unfold covers
  infer_instance

/-- Two writes touch disjoint ranges. -/
def WDisj (w w' : Nat × List Nat) : Prop :=
  w.1 + w.2.length ≤ w'.1 ∨ w'.1 + w'.2.length ≤ w.1

theorem WDisj.symm {w w' : Nat × List Nat} (h : WDisj w w') : WDisj w' w :=
  h.elim Or.inr Or.inl

theorem applyWrite_length (file : List Nat) (pos : Nat) (bytes : List Nat)
    (h : pos + bytes.length ≤ file.length) :
    (applyWrite file pos bytes).length = file.length := by
  unfold applyWrite
  simp only [List.length_append, List.length_take, List.length_drop]
  omega

theorem applyWrite_getElem (file : List Nat) (pos : Nat) (bytes : List Nat)
    (h : pos + bytes.length ≤ file.length) (i : Nat) :
    (applyWrite file pos bytes)[i]? =
      if covers (pos, bytes) i then bytes[i - pos]? else file[i]? := by
  unfold applyWrite covers
  have htl : (file.take pos).length = pos := by
    rw [List.length_take]
    omega
  by_cases h1 : i < pos
  · rw [if_neg (by dsimp only; omega)]
    rw [List.getElem?_append_left (by omega)]
    simp [List.getElem?_take, h1]
  · rw [List.getElem?_append_right (by omega), htl]
    by_cases h2 : i < pos + bytes.length
    · rw [if_pos (by dsimp only; omega)]
      rw [List.getElem?_append_left (by omega)]
    · rw [if_neg (by dsimp only; omega)]
      rw [List.getElem?_append_right (by omega)]
      rw [List.getElem?_drop]
      congr 1
      omega

/-- Pointwise effect of a list of pairwise-disjoint in-bounds writes: a
covered offset holds the covering write's byte, an uncovered offset is
untouched. -/
theorem applyWrites_pointwise (N : Nat) :
    ∀ (ws : List (Nat × List Nat)) (file : List Nat),
      file.length = N → (∀ w ∈ ws, w.1 + w.2.length ≤ N) →
      ws.Pairwise WDisj →
      (∀ i w, w ∈ ws → covers w i →
        (applyWrites file ws)[i]? = w.2[i - w.1]?) ∧
      (∀ i, (∀ w ∈ ws, ¬ covers w i) →
        (applyWrites file ws)[i]? = file[i]?) := by
  intro ws
  induction ws with
  | nil =>
    intro file hlen hin hdisj
    constructor
    · intro i w hw; simp at hw
    · intro i _; rfl
  | cons w ws ih =>
    intro file hlen hin hdisj
    have hwin : w.1 + w.2.length ≤ N := hin w (List.mem_cons_self _ _)
    have hin' : ∀ x ∈ ws, x.1 + x.2.length ≤ N :=
      fun x hx => hin x (List.mem_cons_of_mem _ hx)
    have hdisj' := (List.pairwise_cons.mp hdisj).2
    have hhead := (List.pairwise_cons.mp hdisj).1
    have hlen' : (applyWrite file w.1 w.2).length = N := by
      rw [applyWrite_length file w.1 w.2 (by omega)]
      exact hlen
    have happly : applyWrites file (w :: ws) =
        applyWrites (applyWrite file w.1 w.2) ws := rfl
    obtain ⟨ihcov, ihun⟩ := ih (applyWrite file w.1 w.2) hlen' hin' hdisj'
    constructor
    · intro i x hx hcov
      rcases List.mem_cons.mp hx with rfl | hx'
      · -- covered by the head write: no later write covers i
        rw [happly]
        have hnone : ∀ y ∈ ws, ¬ covers y i := by
          intro y hy hcovy
          have hd := hhead y hy
          unfold covers at hcov hcovy
          unfold WDisj at hd
          omega
        rw [ihun i hnone]
        rw [applyWrite_getElem file x.1 x.2 (by omega) i]
        rw [if_pos hcov]
      · rw [happly]
        exact ihcov i x hx' hcov
    · intro i hnone
      rw [happly]
      rw [ihun i (fun y hy => hnone y (List.mem_cons_of_mem _ hy))]
      rw [applyWrite_getElem file w.1 w.2 (by omega) i]
      rw [if_neg (hnone w (List.mem_cons_self _ _))]

/-! ## Gap and reference ranges partition the original file -/

/-- The gap and reference ranges in ascending order, interleaved exactly as
the `prevOffset` sweep visits them. -/
def coverSegs (N : Nat) : Table → Nat → List (Nat × Nat)
  | [], prev => if prev ≠ N then [(prev, N - prev)] else []
  | (p, e) :: rest, prev =>
    (if p ≠ prev then [(prev, p - prev)] else []) ++
      (p, e.origSize) :: coverSegs N rest (p + e.origSize)

/-- `IsCover a segs N`: the segments are consecutive and tile `[a, N)`
exactly. -/
def IsCover : Nat → List (Nat × Nat) → Nat → Prop
  | a, [], N => a = N
  | a, (p, l) :: rest, N => p = a ∧ IsCover (a + l) rest N

theorem isCover_le : ∀ (segs : List (Nat × Nat)) (a N : Nat),
    IsCover a segs N → a ≤ N := by
  intro segs
  induction segs with
  | nil => intro a N h; exact le_of_eq h
  | cons s rest ih =>
    obtain ⟨p, l⟩ := s
    intro a N h
    have := ih (a + l) N h.2
    omega

theorem coverSegs_isCover (N : Nat) :
    ∀ (t : Table) (prev : Nat), ChainFrom N prev t →
      IsCover prev (coverSegs N t prev) N := by
  intro t
  induction t with
  | nil =>
    intro prev hch
    have hN : prev ≤ N := hch
    rw [coverSegs]
    by_cases heq : prev = N
    · rw [if_neg (by omega)]
      exact heq
    · rw [if_pos heq]
      exact ⟨rfl, by dsimp only [IsCover]; omega⟩
  | cons hd rest ih =>
    obtain ⟨p, e⟩ := hd
    intro prev hch
    obtain ⟨hge, hbound, hrest⟩ := hch
    rw [coverSegs]
    by_cases heq : p = prev
    · rw [if_neg (by omega), List.nil_append]
      exact ⟨heq, heq ▸ ih (p + e.origSize) hrest⟩
    · rw [if_pos heq, List.singleton_append]
      refine ⟨rfl, ?_, ?_⟩
      · omega
      · have : prev + (p - prev) + e.origSize = p + e.origSize := by omega
        rw [this]
        exact ih (p + e.origSize) hrest

theorem isCover_bounds : ∀ (segs : List (Nat × Nat)) (a N : Nat),
    IsCover a segs N → ∀ s ∈ segs, a ≤ s.1 ∧ s.1 + s.2 ≤ N := by
  intro segs
  induction segs with
  | nil => intro a N _ s hs; simp at hs
  | cons hd rest ih =>
    obtain ⟨p, l⟩ := hd
    intro a N h s hs
    obtain ⟨hp, hrest⟩ := h
    rcases List.mem_cons.mp hs with rfl | hs'
    · have := isCover_le rest (a + l) N hrest
      constructor
      · omega
      · dsimp only
        omega
    · have := ih (a + l) N hrest s hs'
      omega

/-- Consecutive tiling segments are pairwise disjoint (as writes, after
slicing). -/
theorem isCover_pairwise : ∀ (segs : List (Nat × Nat)) (a N : Nat),
    IsCover a segs N →
    segs.Pairwise (fun s s' => s.1 + s.2 ≤ s'.1 ∨ s'.1 + s'.2 ≤ s.1) := by
  intro segs
  induction segs with
  | nil => intro a N _; constructor
  | cons hd rest ih =>
    obtain ⟨p, l⟩ := hd
    intro a N h
    obtain ⟨hp, hrest⟩ := h
    refine List.pairwise_cons.mpr ⟨?_, ih (a + l) N hrest⟩
    intro s hs
    have := (isCover_bounds rest (a + l) N hrest s hs).1
    left
    dsimp only
    omega

theorem isCover_covers : ∀ (segs : List (Nat × Nat)) (a N : Nat),
    IsCover a segs N → ∀ i, a ≤ i → i < N →
      ∃ s ∈ segs, s.1 ≤ i ∧ i < s.1 + s.2 := by
  intro segs
  induction segs with
  | nil =>
    intro a N h i hai hiN
    exact absurd (h ▸ hai) (by omega)
  | cons hd rest ih =>
    obtain ⟨p, l⟩ := hd
    intro a N h i hai hiN
    obtain ⟨hp, hrest⟩ := h
    by_cases hin : i < a + l
    · exact ⟨(p, l), List.mem_cons_self _ _, by dsimp only; omega⟩
    · obtain ⟨s, hs, hcov⟩ := ih (a + l) N hrest i (by omega) hiN
      exact ⟨s, List.mem_cons_of_mem _ hs, hcov⟩

/-- The multiset of gap ranges and reference ranges is exactly the multiset of
cover segments. -/
theorem gap_ref_perm_cover (N : Nat) :
    ∀ (t : Table) (prev : Nat),
      (gapSegs N t prev ++
          t.map (fun pe => (pe.1, pe.2.origSize))).Perm
        (coverSegs N t prev) := by
  intro t
  induction t with
  | nil =>
    intro prev
    rw [gapSegs, coverSegs]
    simp
  | cons hd rest ih =>
    obtain ⟨p, e⟩ := hd
    intro prev
    rw [gapSegs, coverSegs]
    by_cases heq : p = prev
    · rw [if_neg (by omega), if_neg (by omega), List.nil_append]
      simp only [List.map_cons]
      exact List.perm_middle.trans
        (List.Perm.cons _ (ih (p + e.origSize)))
    · rw [if_pos heq, if_pos heq, List.singleton_append, List.cons_append]
      simp only [List.map_cons]
      refine List.Perm.cons _ ?_
      exact List.perm_middle.trans
        (List.Perm.cons _ (ih (p + e.origSize)))

/-- Claim C1: for any input container `F`, the decompression pass applied to
the artifacts of the compression pass reconstructs `F` byte-for-byte.

The compression pass records a reference table satisfying the `std::map`
order, no-overlap and boundedness invariants and writes the LLR gap/hash
stream (`writeLLR`); the decompression pass restores every gap range from the
LLR stream at its original offset (`readLLRGo`) and writes one decoded packet
per reference row at its `origPos`.  The media-library codec pipeline is a
primitive of the adapter (§4.A of the spec): its contract — each decoded
packet yields exactly the `origSize` original bytes of its range — enters as
the hypothesis `hdec`, which also lets the packets arrive in any demux order.
The output file may start with arbitrary contents `init` of the recorded
size; every byte of it is overwritten with the corresponding byte of `F`. -/
theorem decompress_reconstructs_original (file init : List Nat) (t : Table)
    (hs : TableSorted t) (hov : NoOverlap t)
    (hb : ∀ p e, (p, e) ∈ t → p + e.origSize ≤ file.length)
    (hinit : init.length = file.length)
    (res : LLRWriteResult) (hw : writeLLR file t = some res)
    (gws : List (Nat × List Nat)) (leftover : List Nat)
    (hr : readLLRGo res.gapBytes t 0 file.length = some (gws, leftover))
    (ws : List (Nat × List Nat))
    (hdec : ws.Perm (t.map (fun pe =>
      (pe.1, sliceF file (pe.1, pe.2.origSize))))) :
    applyWrites (applyWrites init gws) ws = file := by
  have hch : ChainFrom file.length 0 t :=
    chainFrom_mk file.length t 0 hs hov hb
      (fun p e _ => Nat.zero_le p) (Nat.zero_le _)
  -- identify the writer's output
  have hwe := writeLLRGo_eq file t 0 hch
  rw [writeLLR] at hw
  rw [hwe] at hw
  injection hw with hw
  subst hw
  dsimp only at hr
  -- identify the reader's writes
  have hre := readLLRGo_eq file t 0 hch []
  rw [List.append_nil] at hre
  rw [hre] at hr
  injection hr with hr
  obtain ⟨hgws, -⟩ := Prod.mk.injEq .. ▸ hr
  subst hgws
  -- combine the two write phases
  have hfold : applyWrites (applyWrites init
      ((gapSegs file.length t 0).map (fun s => (s.1, sliceF file s)))) ws =
      applyWrites init
        ((gapSegs file.length t 0).map (fun s => (s.1, sliceF file s)) ++
          ws) := by
    unfold applyWrites
    rw [List.foldl_append]
  rw [hfold]
  set N := file.length with hN
  set f : Nat × Nat → Nat × List Nat := fun s => (s.1, sliceF file s)
    with hf
  set allW := (gapSegs N t 0).map f ++ ws with hallW
  -- the combined writes are a permutation of the cover-segment writes
  have hmap : t.map (fun pe => (pe.1, sliceF file (pe.1, pe.2.origSize))) =
      (t.map (fun pe => (pe.1, pe.2.origSize))).map f := by
    rw [List.map_map]
    rfl
  have hperm : allW.Perm ((coverSegs N t 0).map f) := by
    have h₁ : allW.Perm ((gapSegs N t 0).map f ++
        (t.map (fun pe => (pe.1, pe.2.origSize))).map f) := by
      refine List.Perm.append_left _ ?_
      rw [← hmap]
      exact hdec
    have h₂ : (gapSegs N t 0).map f ++
        (t.map (fun pe => (pe.1, pe.2.origSize))).map f =
        ((gapSegs N t 0 ++ t.map (fun pe => (pe.1, pe.2.origSize))).map f) :=
      (List.map_append f _ _).symm
    refine h₁.trans ?_
    rw [h₂]
    exact (gap_ref_perm_cover N t 0).map f
  -- facts about the cover segments
  have hic : IsCover 0 (coverSegs N t 0) N := coverSegs_isCover N t 0 hch
  have hsegbounds := isCover_bounds (coverSegs N t 0) 0 N hic
  have hsegdisj := isCover_pairwise (coverSegs N t 0) 0 N hic
  have hsliceLen : ∀ s ∈ coverSegs N t 0, (sliceF file s).length = s.2 := by
    intro s hsm
    have := (hsegbounds s hsm).2
    unfold sliceF
    rw [List.length_take, List.length_drop]
    omega
  -- transfer them to the combined write list
  have hinb : ∀ w ∈ allW, w.1 + w.2.length ≤ N := by
    intro w hw
    have hw' : w ∈ (coverSegs N t 0).map f := hperm.mem_iff.mp hw
    obtain ⟨s, hsm, rfl⟩ := List.mem_map.mp hw'
    have := hsliceLen s hsm
    have := (hsegbounds s hsm).2
    simp only [hf]
    omega
  have hdisjmap : ((coverSegs N t 0).map f).Pairwise WDisj := by
    rw [List.pairwise_map]
    refine hsegdisj.imp_of_mem ?_
    intro a b ha hb hab
    have hla := hsliceLen a ha
    have hlb := hsliceLen b hb
    unfold WDisj
    simp only [hf]
    rw [hla, hlb]
    exact hab
  have hdisj : allW.Pairwise WDisj :=
    (hperm.pairwise_iff (fun {x y} h => h.symm)).mpr hdisjmap
  -- pointwise comparison with the original file
  obtain ⟨hcov, hun⟩ :=
    applyWrites_pointwise N allW init (by omega) hinb hdisj
  refine List.ext_getElem? ?_
  intro i
  by_cases hi : i < N
  · obtain ⟨s, hsm, hcovs⟩ :=
      isCover_covers (coverSegs N t 0) 0 N hic i (Nat.zero_le i) hi
    have hwmem : f s ∈ allW :=
      hperm.mem_iff.mpr (List.mem_map.mpr ⟨s, hsm, rfl⟩)
    have hcovw : covers (f s) i := by
      unfold covers
      simp only [hf]
      rw [hsliceLen s hsm]
      exact hcovs
    rw [hcov i (f s) hwmem hcovw]
    simp only [hf]
    unfold sliceF
    have hil : i - s.1 < s.2 := by omega
    rw [List.getElem?_take, if_pos hil, List.getElem?_drop]
    congr 1
    omega
  · have hnone : ∀ w ∈ allW, ¬ covers w i := by
      intro w hwm hcovw
      have := hinb w hwm
      unfold covers at hcovw
      omega
    rw [hun i hnone]
    have h₁ : init[i]? = none := List.getElem?_eq_none (by omega)
    have h₂ : file[i]? = none := List.getElem?_eq_none (by omega)
    rw [h₁, h₂]

/-- Witness for C1: a four-byte container with one referenced range `[1, 3)`
(leading and trailing gap bytes), reconstructed over a zeroed output file. -/
theorem decompress_reconstructs_original_witness :
    applyWrites (applyWrites [0, 0, 0, 0] [(0, [5]), (3, [8])])
      [(1, [6, 7])] = [5, 6, 7, 8] :=
  decompress_reconstructs_original [5, 6, 7, 8] [0, 0, 0, 0]
    [(1, ⟨2, 0, 0, 0⟩)] (by decide) (by decide)
    (by
      rintro p e h
      obtain ⟨rfl, rfl⟩ := Prod.mk.injEq .. ▸ List.mem_singleton.mp h
      decide)
    (by decide) ⟨[5, 8], [5, 6, 7, 8]⟩ (by decide)
    [(0, [5]), (3, [8])] [] (by decide) [(1, [6, 7])] (by decide)

end Rawcompr
